import Mathlib

/-!
Verification of the automerge core (src/automerge/src/automerge.rs and
src/automerge/src/query.rs) via a shallow embedding in Lean 4.

Modelling conventions used throughout:
* Machine integers (`u64`, `usize`, `i64`) are modelled as `Nat` / `Int`
  (no arithmetic here approaches overflow).
* Actor ids are interned to dense indices in the source; the interning
  cache is a bijection for cached actors, so maps keyed by actor *index*
  are modelled as association lists keyed by the actor id itself
  (observationally identical).
* `HashMap` / `HashSet` become association lists / `Finset`.
* The 32-byte change hash is modelled as `Nat`; lexicographic byte order
  becomes the numeric order on `Nat`.
-/

/-- Association-list lookup keyed by `Nat` (models `HashMap::get`). -/
def lookupA {α : Type} : List (Nat × α) → Nat → Option α
  | [], _ => none
  | (k, v) :: rest, key => if k = key then some v else lookupA rest key

/-- Association-list insert with overwrite (models `HashMap::insert`). -/
def insertA {α : Type} : List (Nat × α) → Nat → α → List (Nat × α)
  | [], key, v => [(key, v)]
  | (k, w) :: rest, key, v =>
      if k = key then (k, v) :: rest else (k, w) :: insertA rest key v

/-- Update the value at a key if present (models `HashMap::get_mut` usage). -/
def adjustA {α : Type} : List (Nat × α) → Nat → (α → α) → List (Nat × α)
  | [], _, _ => []
  | (k, w) :: rest, key, f =>
      if k = key then (k, f w) :: rest else (k, w) :: adjustA rest key f

/-- `Vec::swap_remove(i)`: replace element `i` with the last element and pop. -/
def swapRemove {α : Type} (l : List α) (i : Nat) : List α :=
  match l.getLast? with
  | none => []
  | some last => (l.set i last).dropLast

/-! ## Operation data model (src/automerge/src/query.rs and the `types`
collaborator referenced from it) -/

/-- An op id `(counter, actor)`.  Actors are interned indices; the byte
order of actor ids is modelled by the order on the index. -/
structure OpId where
  counter : Nat
  actor : Nat
deriving DecidableEq, Repr

/-- Lamport comparison of op ids: counters first, ties broken by actor.
Modelled from the spec: `lamport_cmp` lives in the crate root, which is
not under src/; "Lamport order: compare counters, break ties by actor id". -/
def lamport_cmp (a b : OpId) : Ordering :=
  (compare a.counter b.counter).then (compare a.actor b.actor)

/-- Strict Lamport order on op ids. -/
def lamportLt (a b : OpId) : Prop :=
  a.counter < b.counter ∨ (a.counter = b.counter ∧ a.actor < b.actor)

instance : DecidablePred fun p : OpId × OpId => lamportLt p.1 p.2 :=
  fun _ => by unfold lamportLt; infer_instance

instance (a b : OpId) : Decidable (lamportLt a b) := by
  unfold lamportLt; infer_instance

/-- A key: either an interned map key (modelled by the string itself) or a
sequence key; `none` is the reserved HEAD sentinel. -/
inductive Key where
  | map (s : String)
  | seq (elem : Option OpId)
deriving DecidableEq, Repr

/-- Scalar values (the subset the claims exercise). -/
inductive ScalarValue where
  | counter (v : Int)
  | int (v : Int)
  | str (s : String)
  | null
deriving DecidableEq, Repr

/-- Object kinds for `Make`. -/
inductive ObjKind where
  | map
  | table
  | list
  | text
deriving DecidableEq, Repr

/-- Op actions: `Make(kind)`, `Set(scalar)`, `Inc(delta)`, `Del`. -/
inductive OpType where
  | make (kind : ObjKind)
  | set (v : ScalarValue)
  | inc (delta : Int)
  | del
deriving DecidableEq, Repr

/-- An operation record (`Op` in the `types` collaborator, as used by
query.rs and automerge.rs).  `obj` is the creating op's id; the ROOT
object is `⟨0, 0⟩`. -/
structure Op where
  id : OpId
  change : Nat
  obj : OpId
  key : Key
  action : OpType
  pred : List OpId
  succ : List OpId
  insert : Bool
deriving DecidableEq, Repr

/-- The ROOT object id sentinel. -/
def rootObj : OpId := ⟨0, 0⟩

/-- `Op::is_del`. -/
def Op.is_del (op : Op) : Bool :=
  match op.action with
  | OpType.del => true
  | _ => false

/-- `Op::elemid`: an insert op names its own element; otherwise the element
comes from the sequence key.  Modelled from the spec: "its `id` becomes
that element's id" (the `types` collaborator is not under src/). -/
def Op.elemid (op : Op) : Option OpId :=
  if op.insert then some op.id
  else match op.key with
    | Key.seq e => e
    | Key.map _ => none

/-- `Op::add_succ`: record that `other` supersedes this op.  Modelled from
the spec: "its `pred` set causes the predecessors' `succ` to be updated". -/
def Op.add_succ (op : Op) (other : Op) : Op :=
  { op with succ := op.succ ++ [other.id] }

/-- Values reported by reads (`Op::value`). -/
inductive Value where
  | scalar (v : ScalarValue)
  | object (kind : ObjKind)
deriving DecidableEq, Repr

/-- `Op::value`: reads report `Make` ops as objects and `Set` ops as
scalars; reads only ever report those two shapes. -/
def Op.value (op : Op) : Value :=
  match op.action with
  | OpType.make k => Value.object k
  | OpType.set v => Value.scalar v
  | OpType.inc d => Value.scalar (ScalarValue.counter d)
  | OpType.del => Value.scalar ScalarValue.null

/-! ## Counter-aware visibility (query.rs lines 208-274) -/

/-- `CounterData` (query.rs): running state for a counter op. -/
structure CounterData where
  pos : Nat
  val : Int
  succ : Finset OpId
  op : Op
deriving DecidableEq

/-- The `counters: HashMap<OpId, CounterData>` map. -/
abbrev CounterMap := List (OpId × CounterData)

def cLookup : CounterMap → OpId → Option CounterData
  | [], _ => none
  | (k, v) :: rest, key => if k = key then some v else cLookup rest key

def cInsert : CounterMap → OpId → CounterData → CounterMap
  | [], key, v => [(key, v)]
  | (k, w) :: rest, key, v =>
      if k = key then (k, v) :: rest else (k, w) :: cInsert rest key v

def cAdjust : CounterMap → OpId → (CounterData → CounterData) → CounterMap
  | [], _, _ => []
  | (k, w) :: rest, key, f =>
      if k = key then (k, f w) :: rest else (k, w) :: cAdjust rest key f

/-- The body of `is_visible`'s `Inc` arm for one predecessor id: remove the
inc's own id from the counter's `succ`, add the delta, rewrite the stored
op's action, and report visibility if `succ` emptied. -/
def incStep (selfId : OpId) (incVal : Int) (acc : Bool × CounterMap)
    (id : OpId) : Bool × CounterMap :=
  match cLookup acc.2 id with
  | none => acc
  | some entry =>
      let entry' : CounterData :=
        { entry with
          succ := entry.succ.erase selfId
          val := entry.val + incVal
          op := { entry.op with
                  action := OpType.set (ScalarValue.counter (entry.val + incVal)) } }
      (acc.1 || entry'.succ = ∅, cAdjust acc.2 id (fun _ => entry'))

/-- `is_visible` (query.rs lines 225-261), returning the visibility verdict
together with the updated counter map (the Rust function mutates it). -/
def is_visible (op : Op) (pos : Nat) (counters : CounterMap) :
    Bool × CounterMap :=
  match op.action with
  | OpType.set (ScalarValue.counter val) =>
      let counters' := cInsert counters op.id
        { pos := pos, val := val, succ := op.succ.toFinset, op := op }
      (op.succ.isEmpty, counters')
  | OpType.inc incVal =>
      op.pred.foldl (incStep op.id incVal) (false, counters)
  | _ => (op.succ.isEmpty, counters)

/-- `visible_op` (query.rs lines 263-274). -/
def visible_op (op : Op) (pos : Nat) (counters : CounterMap) : Nat × Op :=
  match op.pred.findSome? (fun pred => cLookup counters pred) with
  | some entry => (entry.pos, entry.op)
  | none => (pos, op)

instance : Inhabited Op :=
  ⟨{ id := ⟨0, 0⟩, change := 0, obj := rootObj, key := Key.map ""
     action := OpType.del, pred := [], succ := [], insert := false }⟩

/-! ## PropQuery (query.rs lines 56-108) -/

/-- `prop_cmp` (query.rs line 75): compares interned map keys.  The source
panics on non-map keys; that branch is unreachable for map queries and is
modelled as `Ordering.eq`. -/
def prop_cmp (left right : Key) : Ordering :=
  match left, right with
  | Key.map a, Key.map b => compare a b
  | _, _ => Ordering.eq

/-- `binary_search_by` (query.rs lines 276-291), the inner loop.  The
`while left < right` loop shrinks `right - left` every iteration, so
`node.length` iterations always reach the exit condition; the fuel keeps
the recursion structural (`bsearchAux_fuel` below shows any sufficient
fuel computes the same index). -/
def bsearchAux (node : List Op) (f : Op → Ordering) :
    Nat → Nat → Nat → Nat
  | 0, left, _ => left
  | fuel + 1, left, right =>
      if left < right then
        let seq := (left + right) / 2
        if f (node.getD seq default) = Ordering.lt then
          bsearchAux node f fuel (seq + 1) right
        else
          bsearchAux node f fuel left seq
      else left

/-- `binary_search_by` (query.rs lines 276-291). -/
def binary_search_by (node : List Op) (f : Op → Ordering) : Nat :=
  bsearchAux node f node.length 0 node.length

/-- Any two sufficient fuels compute the same binary-search result, so
the fuel never truncates the loop. -/
theorem bsearchAux_fuel (node : List Op) (f : Op → Ordering) :
    ∀ (fuel fuel' left right : Nat), right - left ≤ fuel →
      right - left ≤ fuel' →
      bsearchAux node f fuel left right = bsearchAux node f fuel' left right := by
  intro fuel
  induction fuel with
  | zero =>
      intro fuel' left right hle hle'
      have hnlt : ¬ left < right := by omega
      cases fuel' with
      | zero => rfl
      | succ m => rw [bsearchAux, bsearchAux, if_neg hnlt]
  | succ n ih =>
      intro fuel' left right hle hle'
      by_cases hlr : left < right
      · cases fuel' with
        | zero => omega
        | succ m =>
            rw [bsearchAux, bsearchAux, if_pos hlr, if_pos hlr]
            by_cases hf : f (node.getD ((left + right) / 2) default)
                = Ordering.lt
            · rw [if_pos hf, if_pos hf]
              exact ih m _ _ (by omega) (by omega)
            · rw [if_neg hf, if_neg hf]
              exact ih m _ _ (by omega) (by omega)
      · cases fuel' with
        | zero => rw [bsearchAux, bsearchAux, if_neg hlr]
        | succ m => rw [bsearchAux, bsearchAux, if_neg hlr, if_neg hlr]

/-- The scan loop of `PropQuery::query_node_with_lookup` (query.rs lines
95-105): from `start`, push every visible op (after counter substitution)
until the `(obj, key)` run ends. -/
def propLoop (child : List Op) (obj : OpId) (key : Key) (pos : Nat)
    (counters : CounterMap) (accOps : List Op) (accPos : List Nat) :
    List Op × List Nat :=
  if _h : pos < child.length then
    let op := child.getD pos default
    if op.obj = obj ∧ op.key = key then
      let r := is_visible op pos counters
      if r.1 then
        let v := visible_op op pos r.2
        propLoop child obj key (pos + 1) r.2 (accOps ++ [v.2])
          (accPos ++ [v.1])
      else
        propLoop child obj key (pos + 1) r.2 accOps accPos
    else (accOps, accPos)
  else (accOps, accPos)
termination_by child.length - pos
decreasing_by all_goals omega

/-- `PropQuery` run over one node holding all ops of the object (the
B-tree-shaped op tree itself is not under src/; per spec section 4.2 its
in-order traversal yields the section 3.3 total order, so a query over the
flat ordered op list is the tree search with a single leaf). -/
def propQuery (child : List Op) (obj : OpId) (key : Key) :
    List Op × List Nat :=
  let start := binary_search_by child
    (fun op => (lamport_cmp op.obj obj).then (prop_cmp op.key key))
  propLoop child obj key start [] [] []

/-! ## NthQuery (query.rs lines 110-206) -/

/-- Query verdicts (`QueryResult`, spelled `Decend` in the source). -/
inductive QueryResult where
  | decend
  | next
  | finish
deriving DecidableEq, Repr

/-- The mutable state of `NthQuery` (obj and target are parameters). -/
structure NthState where
  index : Nat
  seen : Nat
  insert : Nat
  ops : List Op
  last_seen : Option OpId
  counters : CounterMap
deriving DecidableEq

def nthInit : NthState :=
  { index := 0, seen := 0, insert := 0, ops := [], last_seen := none
    counters := [] }

/-- `NthQuery::query_element` (query.rs lines 178-205).  The
`element_seeks` instrumentation counter is omitted (it is never read). -/
def nthElem (obj : OpId) (target : Nat) (element : Op) (st : NthState) :
    QueryResult × NthState :=
  let st := { st with index := st.index + 1 }
  if element.obj ≠ obj then
    (if st.seen > target then QueryResult.finish else QueryResult.next, st)
  else if element.insert ∧ st.seen > target then
    (QueryResult.finish, st)
  else
    let st :=
      if element.insert then
        { st with insert := st.index - 1, last_seen := none }
      else st
    let r := is_visible element (st.index - 1) st.counters
    let visible := r.1
    let st := { st with counters := r.2 }
    let st :=
      if visible ∧ st.last_seen = none then
        { st with seen := st.seen + 1, last_seen := element.elemid }
      else st
    let st :=
      if st.seen = target + 1 ∧ visible then
        { st with
          ops := st.ops ++ [(visible_op element (st.index - 1) st.counters).2] }
      else st
    (QueryResult.next, st)

/-- Drive `NthQuery` over the ops in order, stopping at FINISH (the tree
driver is not under src/; spec section 4.4: the engine dispatches
`query_element` per operation in order). -/
def nthRunAux (obj : OpId) (target : Nat) : List Op → NthState → NthState
  | [], st => st
  | o :: rest, st =>
      match nthElem obj target o st with
      | (QueryResult.finish, st') => st'
      | (_, st') => nthRunAux obj target rest st'

def nthRun (obj : OpId) (target : Nat) (ops : List Op) : NthState :=
  nthRunAux obj target ops nthInit

/-! ## Read operations `values` / `value` (automerge.rs lines 382-428)

The map-key interning cache is bypassed: a key string absent from the
cache has no ops, and the query over the op list returns `[]` for it
anyway, matching the source's early-out. -/

/-- `values(obj, Prop::Map(p))`: visible ops at a map key, as
(value, op id) pairs (the exported id keeps only the op id here). -/
def values_map (ops : List Op) (obj : OpId) (p : String) :
    List (Value × OpId) :=
  (propQuery ops obj (Key.map p)).1.map (fun o => (o.value, o.id))

/-- `values(obj, Prop::Seq(n))`: the n-th visible list element. -/
def values_seq (ops : List Op) (obj : OpId) (n : Nat) :
    List (Value × OpId) :=
  (nthRun obj n ops).ops.map (fun o => (o.value, o.id))

/-- `value(obj, prop)` = `values(obj, prop).last()` (automerge.rs 382-388). -/
def value_map (ops : List Op) (obj : OpId) (p : String) :
    Option (Value × OpId) :=
  (values_map ops obj p).getLast?

/-- `value(obj, Prop::Seq(n))` = last of `values`. -/
def value_seq (ops : List Op) (obj : OpId) (n : Nat) :
    Option (Value × OpId) :=
  (values_seq ops obj n).getLast?

/-! ## SeekOp and insert_op (automerge.rs lines 262-273)

`SeekOp` itself is an op-tree query that is not under src/; it is
modelled from the spec (section 4.4.1 and section 4.3). -/

/-- Modelled from the spec: SeekOp's `succ` result, "the set of
predecessors for a new operation" — the positions of the ops the new op
names in its `pred`. -/
def seekSuccPositions (ops : List Op) (op : Op) : List Nat :=
  (List.range ops.length).filter
    (fun i => (ops.getD i default).id ∈ op.pred)

/-- Modelled from the spec (section 4.3): the insertion position for an op.
For `insert = true`: "placed immediately after the most recent concurrent
or causally-earlier insertion that also targets `elem`, ordered among such
siblings by descending Lamport op id" — scan forward from the anchor,
skipping non-insert ops (they belong to earlier elements) and inserts with
a greater Lamport id together with their regions, stopping at the first
insert with a smaller id.  Non-insert seq ops sit adjacent to their
element; other ops go at the end of their run (the claims below only
exercise the insert path and deletes, whose position is unused). -/
def seekInsertPos (ops : List Op) (op : Op) : Nat :=
  if op.insert then
    let base :=
      match op.key with
      | Key.seq (some e) =>
          match ops.findIdx? (fun o => o.insert && o.id = e) with
          | some i => i + 1
          | none => ops.length
      | _ => 0
    base + ((ops.drop base).takeWhile
      (fun o => !o.insert || decide (lamportLt op.id o.id))).length
  else
    match op.key with
    | Key.seq (some e) =>
        match ops.findIdx? (fun o => o.elemid = some e) with
        | some i => i + 1
        | none => ops.length
    | _ => ops.length

/-- Modelled from the spec: `SeekOp` "find the insertion point and the set
of predecessors for a new operation. Returns (pos, succ_positions)". -/
def seek_op (ops : List Op) (op : Op) : Nat × List Nat :=
  (seekInsertPos ops op, seekSuccPositions ops op)

/-- `insert_op` (automerge.rs lines 262-273): update each predecessor's
`succ` via replace, then insert the op unless it is a delete. -/
def insert_op (ops : List Op) (op : Op) : List Op :=
  let q := seek_op ops op
  let ops' := q.2.foldl
    (fun acc i => acc.set i ((acc.getD i default).add_succ op)) ops
  if ¬ op.is_del then ops'.insertIdx q.1 op else ops'

/-! ## Changes and the document (automerge.rs lines 16-27, 3.4-3.5 data
model)

A `Change` carries its operation vector already translated to internal
`Op` records (the `legacy` wire format and re-interning performed by
`import_ops` are identity up to the interning abstraction; `import_ops`
below stamps the change-id and op ids exactly as automerge.rs 537-572
does).  The `time`, `message` and raw-bytes fields play no role in any
claim and are omitted. -/

structure Change where
  actorId : Nat
  seq : Nat
  startOp : Nat
  deps : List Nat
  hash : Nat
  ops : List Op
deriving DecidableEq, Repr

instance : Inhabited Change :=
  ⟨{ actorId := 0, seq := 1, startOp := 1, deps := [], hash := 0, ops := [] }⟩

/-- `Change::max_op` = `start_op + len - 1` (spec section 4.4 clock_at). -/
def Change.max_op (c : Change) : Nat := c.startOp + c.ops.length - 1

/-- The document (`Automerge`, automerge.rs lines 16-27).  The `saved`
watermark is used only by save/save_incremental, which no claim covers,
and is omitted. -/
structure ADoc where
  queue : List Change
  history : List Change
  historyIndex : List (Nat × Nat)
  states : List (Nat × List Nat)
  deps : List Nat
  ops : List Op
  actor : Option Nat
  maxOp : Nat
deriving DecidableEq

/-- `Automerge::new` (automerge.rs lines 30-42). -/
def ADoc.new : ADoc :=
  { queue := [], history := [], historyIndex := [], states := []
    deps := [], ops := [], actor := none, maxOp := 0 }

/-- `duplicate_seq` (automerge.rs lines 479-487). -/
def duplicate_seq (d : ADoc) (c : Change) : Bool :=
  match lookupA d.states c.actorId with
  | none => false
  | some s => decide (c.seq ≤ s.length)

/-- `is_causally_ready` (automerge.rs lines 519-524). -/
def is_causally_ready (d : ADoc) (c : Change) : Bool :=
  c.deps.all (fun dep => (lookupA d.historyIndex dep).isSome)

/-- `HashSet::remove` on the frontier, modelled on a duplicate-free list. -/
def hsErase (s : List Nat) (x : Nat) : List Nat := s.filter (· ≠ x)

/-- `HashSet::insert` on the frontier. -/
def hsInsert (s : List Nat) (x : Nat) : List Nat :=
  if x ∈ s then s else s ++ [x]

/-- `update_deps` (automerge.rs lines 876-881): drop the change's deps from
the frontier and add its hash. -/
def update_deps (d : ADoc) (c : Change) : ADoc :=
  { d with deps := hsInsert (c.deps.foldl hsErase d.deps) c.hash }

/-- `states.entry(actor).or_default().push(i)`. -/
def statesPush (s : List (Nat × List Nat)) (a i : Nat) :
    List (Nat × List Nat) :=
  insertA s a ((lookupA s a).getD [] ++ [i])

/-- `update_history` (automerge.rs lines 858-874). -/
def update_history (d : ADoc) (c : Change) : ADoc :=
  let d := { d with maxOp := max d.maxOp (c.startOp + c.ops.length - 1) }
  let d := update_deps d c
  let idx := d.history.length
  { d with
    states := statesPush d.states c.actorId idx
    historyIndex := insertA d.historyIndex c.hash idx
    history := d.history ++ [c] }

/-- `import_ops` (automerge.rs lines 537-572): stamp each op with the
change id and the op id `(start_op + i, actor)`; the legacy-format and
interning conversions are identity under the modelling conventions. -/
def import_ops (c : Change) (changeId : Nat) : List Op :=
  (List.range c.ops.length).map (fun i =>
    let o := c.ops.getD i default
    { o with change := changeId, id := ⟨c.startOp + i, c.actorId⟩ })

/-- `apply_change` (automerge.rs lines 511-517). -/
def apply_change (d : ADoc) (c : Change) : ADoc :=
  let ops := import_ops c d.history.length
  let d := update_history d c
  ops.foldl (fun dd op => { dd with ops := insert_op dd.ops op }) d

/-- The error type (the variants the embedded code can produce). -/
inductive AutomergeError where
  | duplicateSeqNumber (seq : Nat) (actor : Nat)
  | invalidSeq (seq : Nat)
deriving DecidableEq, Repr

/-- The per-change loop of `apply_changes` (automerge.rs lines 489-504):
skip known hashes, fail on duplicate seq, apply when causally ready,
otherwise enqueue. -/
def processBatch : List Change → ADoc → Except AutomergeError ADoc
  | [], d => Except.ok d
  | c :: rest, d =>
      if (lookupA d.historyIndex c.hash).isSome then processBatch rest d
      else if duplicate_seq d c then
        Except.error (AutomergeError.duplicateSeqNumber c.seq c.actorId)
      else if is_causally_ready d c then processBatch rest (apply_change d c)
      else processBatch rest { d with queue := d.queue ++ [c] }

/-- `pop_next_causally_ready_change` (automerge.rs lines 526-535): find the
first causally ready queued change and `swap_remove` it. -/
def pop_next_causally_ready_change (d : ADoc) : Option (Change × ADoc) :=
  match d.queue.findIdx? (fun c => is_causally_ready d c) with
  | some i => some (d.queue.getD i default, { d with queue := swapRemove d.queue i })
  | none => none

theorem swapRemove_length {α : Type} (l : List α) (i : Nat) (h : l ≠ []) :
    (swapRemove l i).length = l.length - 1 := by
  unfold swapRemove
  match hl : l.getLast? with
  | none => exact absurd (List.getLast?_eq_none_iff.mp hl) h
  | some last => simp [List.length_dropLast]

theorem findIdxQ_lt_length {α : Type} {p : α → Bool} {l : List α}
    {i : Nat} (h : l.findIdx? p = some i) : i < l.length :=
  (List.findIdx?_eq_some_iff_findIdx_eq.mp h).1

theorem apply_change_queue (d : ADoc) (c : Change) :
    (apply_change d c).queue = d.queue := by
  unfold apply_change
  have hfold : ∀ (os : List Op) (dd : ADoc),
      (os.foldl (fun dd op => { dd with ops := insert_op dd.ops op }) dd).queue
        = dd.queue := by
    intro os
    induction os with
    | nil => intro dd; rfl
    | cons o rest ih => intro dd; simpa using ih _
  simp only [hfold]
  simp [update_history, update_deps]

/-- The queue-draining loop of `apply_changes` (automerge.rs lines
505-507): repeatedly apply the next causally ready queued change until
none is ready.  Each iteration removes one queued change, so the loop
runs at most `queue.length` times; the fuel keeps the recursion
structural, and `drainQueue_fix` below certifies it is never exhausted
before the pop comes back empty. -/
def drainAux : Nat → ADoc → ADoc
  | 0, d => d
  | fuel + 1, d =>
      match pop_next_causally_ready_change d with
      | some cd => drainAux fuel (apply_change cd.2 cd.1)
      | none => d

def drainQueue (d : ADoc) : ADoc := drainAux d.queue.length d

/-- `apply_changes` (automerge.rs lines 489-509): the per-change loop,
then the queue drain; an error aborts before the drain. -/
def apply_changes (cs : List Change) (d : ADoc) :
    Except AutomergeError ADoc :=
  (processBatch cs d).map drainQueue

/-- `_get_heads` (automerge.rs lines 843-847): the frontier, sorted
(`sort_unstable` on hashes; an insertion sort computes the same sorted
vector). -/
def get_heads (d : ADoc) : List Nat :=
  d.deps.insertionSort (· ≤ ·)

/-- `get_hash` (automerge.rs lines 849-856). -/
def get_hash (d : ADoc) (actor seq : Nat) : Except AutomergeError Nat :=
  match ((lookupA d.states actor).bind (fun v => v.get? (seq - 1))).bind
      (fun i => d.history.get? i) with
  | some c => Except.ok c.hash
  | none => Except.error (AutomergeError.invalidSeq seq)

/-- The `seq` a transaction started now would get (automerge.rs line 95);
`entry(actor).or_default()` inserts an empty states entry as a side
effect, which no later read distinguishes from an absent entry. -/
def txSeq (d : ADoc) (actor : Nat) : Nat :=
  ((lookupA d.states actor).getD []).length + 1

/-- The `deps` computed by `tx` (automerge.rs lines 96-102).  The source
unwraps `get_hash`; the error branch here is unreachable under the state
invariant (`txSeq > 1` guarantees a recorded previous change). -/
def tx_deps (d : ADoc) (actor : Nat) : List Nat :=
  let seq := txSeq d actor
  let deps := get_heads d
  if 1 < seq then
    match get_hash d actor (seq - 1) with
    | Except.ok last_hash =>
        if last_hash ∈ deps then deps else deps ++ [last_hash]
    | Except.error _ => deps
  else deps

/-- `_get_change_by_hash` (automerge.rs lines 805-809). -/
def get_change_by_hash (d : ADoc) (h : Nat) : Option Change :=
  (lookupA d.historyIndex h).bind (fun i => d.history.get? i)

/-! ## get_changes (automerge.rs lines 706-779) -/

/-- The hashes of the changes in a history. -/
def histHashes (history : List Change) : Finset Nat :=
  (history.map Change.hash).toFinset

/-- The keys present in the history index. -/
def idxKeys (hi : List (Nat × Nat)) : Finset Nat :=
  (hi.map Prod.fst).toFinset

/-- The scan loop of `get_changes_fast` (automerge.rs lines 717-729):
include a change when its deps intersect the working set, abort when they
do so only partially. -/
def fastLoop : List Change → Finset Nat → List Change →
    Option (List Change × Finset Nat)
  | [], seen, acc => some (acc, seen)
  | c :: rest, seen, acc =>
      let deps_seen := c.deps.countP (fun h => decide (h ∈ seen))
      if 0 < deps_seen then
        if deps_seen ≠ c.deps.length then none
        else fastLoop rest (insert c.hash seen) (acc ++ [c])
      else fastLoop rest seen acc

/-- `get_changes_fast` (automerge.rs lines 706-737). -/
def get_changes_fast (d : ADoc) (have_deps : List Nat) :
    Option (List Change) :=
  if have_deps.isEmpty then some d.history
  else
    match (have_deps.filterMap (lookupA d.historyIndex)).min? with
    | none => none
    | some m =>
        match fastLoop (d.history.drop (m + 1)) have_deps.toFinset [] with
        | none => none
        | some r =>
            if (get_heads d).all (fun h => decide (h ∈ r.2)) then some r.1
            else none

theorem lookupA_mem_keys {α : Type} :
    ∀ {l : List (Nat × α)} {k : Nat} {v : α},
      lookupA l k = some v → k ∈ l.map Prod.fst := by
  intro l
  induction l with
  | nil => intro k v h; simp [lookupA] at h
  | cons p rest ih =>
      intro k v h
      rw [lookupA] at h
      by_cases hk : p.1 = k
      · simp [hk]
      · simp [hk] at h
        simp [ih h]

/-- The DFS loop of `get_changes_slow` (automerge.rs lines 740-754).  The
stack top is the list head (`Vec::pop` pops the back, so callers pass the
initial stack reversed and dep pushes are reversed). -/
def slowLoop (d : ADoc) (stack : List Nat) (seen : Finset Nat) :
    Finset Nat :=
  match stack with
  | [] => seen
  | h :: rest =>
      if h ∈ seen then slowLoop d rest seen
      else
        match hc : get_change_by_hash d h with
        | some c => slowLoop d (c.deps.reverse ++ rest) (insert h seen)
        | none => slowLoop d rest (insert h seen)
termination_by (((histHashes d.history ∪ idxKeys d.historyIndex) \ seen).card,
  stack.length)
decreasing_by
  · exact Prod.Lex.right _ (by simp only [List.length_cons]; omega)
  · apply Prod.Lex.left
    apply Finset.card_lt_card
    apply Finset.ssubset_iff_of_subset
      (Finset.sdiff_subset_sdiff (le_refl _) (by
        intro x hx
        simp only [Finset.mem_insert] at *
        tauto)) |>.mpr
    refine ⟨h, ?_, ?_⟩
    · have hk : h ∈ (d.historyIndex.map Prod.fst) := by
        unfold get_change_by_hash at hc
        rcases hl : lookupA d.historyIndex h with _ | i
        · rw [hl] at hc; simp at hc
        · exact lookupA_mem_keys hl
      simp [histHashes, idxKeys, Finset.mem_sdiff, *]
    · simp
  · rcases Nat.lt_or_ge
      (((histHashes d.history ∪ idxKeys d.historyIndex) \ insert h seen).card)
      (((histHashes d.history ∪ idxKeys d.historyIndex) \ seen).card) with hlt | hge
    · exact Prod.Lex.left _ _ hlt
    · have hle : ((histHashes d.history ∪ idxKeys d.historyIndex) \ insert h seen).card
          ≤ ((histHashes d.history ∪ idxKeys d.historyIndex) \ seen).card := by
        apply Finset.card_le_card
        apply Finset.sdiff_subset_sdiff (le_refl _)
        intro x hx
        simp only [Finset.mem_insert]
        tauto
      have heq : ((histHashes d.history ∪ idxKeys d.historyIndex) \ insert h seen).card
          = ((histHashes d.history ∪ idxKeys d.historyIndex) \ seen).card := by omega
      rw [heq]
      exact Prod.Lex.right _ (by simp only [List.length_cons]; omega)

/-- `get_changes_slow` (automerge.rs lines 739-759): history minus the
DFS closure of `have_deps`. -/
def get_changes_slow (d : ADoc) (have_deps : List Nat) : List Change :=
  let seen := slowLoop d have_deps.reverse ∅
  d.history.filter (fun c => decide (c.hash ∉ seen))

/-- `_get_changes` (automerge.rs lines 773-779): fast path, else slow. -/
def get_changes (d : ADoc) (have_deps : List Nat) : List Change :=
  match get_changes_fast d have_deps with
  | some changes => changes
  | none => get_changes_slow d have_deps

/-! ## clock_at and historical reads (automerge.rs lines 289-326, 366-377,
430-462, 781-799)

The `Clock` type lives in the `types` collaborator (not under src/):
modelled from the spec, "a Clock maps actor index → greatest op counter
observed at the historical frontier"; absent actors read as 0. -/

abbrev Clock := List (Nat × Nat)

def clockGet (clock : Clock) (actor : Nat) : Nat :=
  (lookupA clock actor).getD 0

/-- `Clock::include`: modelled from the spec, "for each actor take the max
counter ... across reached changes". -/
def clockInclude (clock : Clock) (actor v : Nat) : Clock :=
  insertA clock actor (max (clockGet clock actor) v)

/-- The DFS loop of `clock_at` (automerge.rs lines 786-797).  The source's
loop terminates because change deps always point to earlier changes; the
explicit fuel bounds the traversal in the same way for arbitrary states
(the theorem below concerns empty `heads`, for which the loop body never
runs). -/
def clockLoop (d : ADoc) : Nat → List Nat → Finset Nat → Clock → Clock
  | 0, _, _, clock => clock
  | _ + 1, [], _, clock => clock
  | fuel + 1, h :: rest, seen, clock =>
      match get_change_by_hash d h with
      | some c =>
          clockLoop d fuel
            (((c.deps.filter (fun x => decide (x ∉ seen))).reverse) ++ rest)
            (insert h seen)
            (clockInclude clock c.actorId c.max_op)
      | none => clockLoop d fuel rest seen clock

/-- `clock_at` (automerge.rs lines 781-799). -/
def clock_at (d : ADoc) (heads : List Nat) : Clock :=
  clockLoop d ((d.history.length + heads.length + 1) * (d.history.length + 1))
    heads.reverse ∅ []

/-- Modelled from the spec (section 4.4, historical visibility): an op is
visible at a clock iff its counter is covered and no successor's counter
is. -/
def visibleAt (clock : Clock) (op : Op) : Bool :=
  decide (op.id.counter ≤ clockGet clock op.id.actor) &&
    op.succ.all (fun s => decide (clockGet clock s.actor < s.counter))

/-- `object_type` (an op-set helper not under src/): modelled from the
spec, "the `Make(kind)` that created `obj`, if any"; the root "is always a
map". -/
def object_type (d : ADoc) (obj : OpId) : Option ObjKind :=
  if obj = rootObj then some ObjKind.map
  else (d.ops.find? (fun o => o.id = obj)).bind
    (fun o => match o.action with
      | OpType.make k => some k
      | _ => none)

/-- `keys_at` (automerge.rs lines 289-297); the `KeysAt` query is not
under src/ and is modelled from the spec: "enumerate map keys in the
object that have at least one visible op at the historical frontier". -/
def keys_at (d : ADoc) (obj : OpId) (heads : List Nat) : List String :=
  let clock := clock_at d heads
  ((d.ops.filter (fun o => o.obj = obj && visibleAt clock o)).filterMap
    (fun o => match o.key with
      | Key.map s => some s
      | _ => none)).dedup

/-- `length_at` (automerge.rs lines 313-326); the `LenAt` query is
modelled from the spec: "per-object count of distinct visible sequence
elements". -/
def length_at (d : ADoc) (obj : OpId) (heads : List Nat) : Nat :=
  let clock := clock_at d heads
  match object_type d obj with
  | some ObjKind.map | some ObjKind.table => (keys_at d obj heads).length
  | some ObjKind.list | some ObjKind.text =>
      ((d.ops.filter (fun o => o.obj = obj && visibleAt clock o)).filterMap
        Op.elemid).dedup.length
  | none => 0

/-- `values_at` for a map prop (automerge.rs lines 430-452); the `PropAt`
query is modelled from the spec: "list all visible values at a map key"
at the clock. -/
def values_at_map (d : ADoc) (obj : OpId) (p : String) (heads : List Nat) :
    List (Value × OpId) :=
  let clock := clock_at d heads
  (d.ops.filter
    (fun o => o.obj = obj && o.key = Key.map p && visibleAt clock o)).map
    (fun o => (o.value, o.id))

/-- `text_at` (automerge.rs lines 366-377): concatenate the string values
of the visible ops in order; the `ListValsAt` query is modelled from the
spec: "all visible values in order (used for text reconstruction)". -/
def text_at (d : ADoc) (obj : OpId) (heads : List Nat) : String :=
  let clock := clock_at d heads
  let q := d.ops.filter (fun o => o.obj = obj && visibleAt clock o)
  q.foldl
    (fun buffer o =>
      match o.action with
      | OpType.set (ScalarValue.str s) => buffer ++ s
      | _ => buffer) ""

/-! ## State invariants of reachable documents -/

/-- The history index is exactly the positions of the history entries. -/
def IndexInvP (d : ADoc) : Prop :=
  (∀ p ∈ d.historyIndex,
    p.2 < d.history.length ∧ (d.history.getD p.2 default).hash = p.1) ∧
  (∀ i, i < d.history.length →
    lookupA d.historyIndex ((d.history.getD i default).hash) = some i)

/-- Every dep of a history entry is the hash of an earlier entry. -/
def CausalInvP (d : ADoc) : Prop :=
  ∀ i, i < d.history.length →
    ∀ dep ∈ (d.history.getD i default).deps,
      ∃ j, j < i ∧ (d.history.getD j default).hash = dep

/-- Applied changes have pairwise distinct hashes. -/
def HashNodupP (d : ADoc) : Prop := (d.history.map Change.hash).Nodup

/-- The hashes of history entries no other history entry depends on. -/
def frontierSet (history : List Change) : Finset Nat :=
  (histHashes history).filter (fun h => ∀ c ∈ history, h ∉ c.deps)

/-- The `deps` field is the frontier of the history (as a set, without
duplicates). -/
def FrontierInvP (d : ADoc) : Prop :=
  d.deps.Nodup ∧ d.deps.toFinset = frontierSet d.history

/-- Per-actor state entries point into the history. -/
def StatesInvP (d : ADoc) : Prop :=
  ∀ p ∈ d.states, ∀ i ∈ p.2, i < d.history.length

/-- Queued changes are unseen, self-dep-free, and pairwise distinct. -/
def QueueInvP (d : ADoc) : Prop :=
  (∀ c ∈ d.queue, c.hash ∉ histHashes d.history ∧ c.hash ∉ c.deps) ∧
  (d.queue.map Change.hash).Nodup

/-- The document invariant: every state reachable by `apply_changes` from
`ADoc.new` with well-formed batches satisfies it. -/
def DocInv (d : ADoc) : Prop :=
  IndexInvP d ∧ CausalInvP d ∧ HashNodupP d ∧ FrontierInvP d ∧
    StatesInvP d ∧ QueueInvP d

instance (d : ADoc) : Decidable (IndexInvP d) := by
  unfold IndexInvP; infer_instance

instance (d : ADoc) : Decidable (CausalInvP d) := by
  unfold CausalInvP; infer_instance

instance (d : ADoc) : Decidable (FrontierInvP d) := by
  unfold FrontierInvP frontierSet; infer_instance

instance (d : ADoc) : Decidable (DocInv d) := by
  unfold DocInv HashNodupP StatesInvP QueueInvP; infer_instance

/-- Batches whose changes carry real digests: pairwise distinct hashes,
no hash already queued, and no self-dependency. -/
def GoodBatch (d : ADoc) (cs : List Change) : Prop :=
  (cs.map Change.hash).Nodup ∧
  ∀ c ∈ cs, c.hash ∉ d.queue.map Change.hash ∧ c.hash ∉ c.deps

instance (d : ADoc) (cs : List Change) : Decidable (GoodBatch d cs) := by
  unfold GoodBatch; infer_instance

/-! ### Small helper lemmas -/

theorem lookupA_mem {α : Type} :
    ∀ {l : List (Nat × α)} {k : Nat} {v : α},
      lookupA l k = some v → (k, v) ∈ l := by
  intro l
  induction l with
  | nil => intro k v h; simp [lookupA] at h
  | cons p rest ih =>
      intro k v h
      rw [lookupA] at h
      by_cases hk : p.1 = k
      · simp only [if_pos hk, Option.some.injEq] at h
        have hp : p = (k, v) := by cases p; simp_all
        rw [← hp]
        exact List.mem_cons_self _ _
      · rw [if_neg hk] at h
        exact List.mem_cons_of_mem _ (ih h)

theorem lookupA_eq_none {α : Type} :
    ∀ {l : List (Nat × α)} {k : Nat},
      lookupA l k = none ↔ k ∉ l.map Prod.fst := by
  intro l
  induction l with
  | nil => intro k; simp [lookupA]
  | cons p rest ih =>
      intro k
      rw [lookupA]
      by_cases hk : p.1 = k <;> simp [hk, ih, Ne.symm]

theorem insertA_of_not_mem {α : Type} :
    ∀ {l : List (Nat × α)} {k : Nat} (v : α),
      k ∉ l.map Prod.fst → insertA l k v = l ++ [(k, v)] := by
  intro l
  induction l with
  | nil => intro k v _; rfl
  | cons p rest ih =>
      intro k v h
      simp only [List.map_cons, List.mem_cons] at h
      push_neg at h
      rw [insertA, if_neg (fun hh => h.1 hh.symm), ih v h.2]
      simp

theorem lookupA_append_left {α : Type} {l₁ l₂ : List (Nat × α)} {k : Nat}
    {v : α} (h : lookupA l₁ k = some v) :
    lookupA (l₁ ++ l₂) k = some v := by
  induction l₁ with
  | nil => simp [lookupA] at h
  | cons p rest ih =>
      rw [List.cons_append, lookupA]
      rw [lookupA] at h
      by_cases hk : p.1 = k
      · simpa [hk] using h
      · rw [if_neg hk] at h ⊢
        exact ih h

theorem lookupA_append_right {α : Type} {l₁ l₂ : List (Nat × α)} {k : Nat}
    (h : lookupA l₁ k = none) :
    lookupA (l₁ ++ l₂) k = lookupA l₂ k := by
  induction l₁ with
  | nil => simp
  | cons p rest ih =>
      rw [List.cons_append, lookupA]
      rw [lookupA] at h
      by_cases hk : p.1 = k
      · simp [hk] at h
      · rw [if_neg hk] at h ⊢
        exact ih h

theorem mem_insertA {α : Type} :
    ∀ {l : List (Nat × α)} {k : Nat} {v : α} {p : Nat × α},
      p ∈ insertA l k v → p = (k, v) ∨ p ∈ l := by
  intro l
  induction l with
  | nil => intro k v p h; simp [insertA] at h; simp [h]
  | cons q rest ih =>
      intro k v p h
      rw [insertA] at h
      by_cases hk : q.1 = k
      · rw [if_pos hk] at h
        rcases List.mem_cons.mp h with h | h
        · left; rw [h, hk]
        · right; exact List.mem_cons_of_mem _ h
      · rw [if_neg hk] at h
        rcases List.mem_cons.mp h with h | h
        · right; simp [h]
        · rcases ih h with h | h
          · left; exact h
          · right; exact List.mem_cons_of_mem _ h

theorem mem_hsErase {s : List Nat} {x y : Nat} :
    x ∈ hsErase s y ↔ x ∈ s ∧ x ≠ y := by
  unfold hsErase
  simp [List.mem_filter]

theorem mem_hsInsert {s : List Nat} {x y : Nat} :
    x ∈ hsInsert s y ↔ x = y ∨ x ∈ s := by
  unfold hsInsert
  by_cases h : y ∈ s
  · rw [if_pos h]
    constructor
    · exact Or.inr
    · rintro (rfl | hx)
      · exact h
      · exact hx
  · rw [if_neg h]
    simp [List.mem_append, or_comm]

theorem nodup_hsErase {s : List Nat} (h : s.Nodup) (y : Nat) :
    (hsErase s y).Nodup := List.Nodup.filter _ h

theorem nodup_hsInsert {s : List Nat} (h : s.Nodup) (y : Nat) :
    (hsInsert s y).Nodup := by
  unfold hsInsert
  by_cases hy : y ∈ s
  · rw [if_pos hy]; exact h
  · rw [if_neg hy]
    rw [List.nodup_append]
    exact ⟨h, List.nodup_singleton _, by
      simp only [List.disjoint_singleton]
      exact hy⟩

theorem mem_foldl_erase {x : Nat} :
    ∀ (l : List Nat) (s : List Nat),
      x ∈ l.foldl hsErase s ↔ x ∈ s ∧ x ∉ l := by
  intro l
  induction l with
  | nil => intro s; simp
  | cons a rest ih =>
      intro s
      rw [List.foldl_cons, ih]
      rw [mem_hsErase]
      simp only [List.mem_cons]
      constructor
      · rintro ⟨⟨hs, hne⟩, hr⟩
        exact ⟨hs, by tauto⟩
      · rintro ⟨hs, hr⟩
        push_neg at hr
        exact ⟨⟨hs, hr.1⟩, hr.2⟩

theorem nodup_foldl_erase :
    ∀ (l : List Nat) (s : List Nat), s.Nodup → (l.foldl hsErase s).Nodup := by
  intro l
  induction l with
  | nil => intro s hs; exact hs
  | cons a rest ih =>
      intro s hs
      rw [List.foldl_cons]
      exact ih _ (nodup_hsErase hs a)

theorem histHashes_append (history : List Change) (c : Change) :
    histHashes (history ++ [c]) = insert c.hash (histHashes history) := by
  simp [histHashes, Finset.insert_eq, Finset.union_comm]

theorem mem_histHashes {history : List Change} {h : Nat} :
    h ∈ histHashes history ↔ ∃ c ∈ history, c.hash = h := by
  simp [histHashes]

theorem getD_mem_of_lt {α : Type} [Inhabited α] {l : List α} {i : Nat}
    (h : i < l.length) : l.getD i default ∈ l := by
  rw [List.getD_eq_getElem l default h]
  exact List.getElem_mem h

theorem hash_getD_mem_histHashes {history : List Change} {i : Nat}
    (h : i < history.length) :
    (history.getD i default).hash ∈ histHashes history :=
  mem_histHashes.mpr ⟨_, getD_mem_of_lt h, rfl⟩

/-! ### apply_change: effect on the history state -/

theorem fold_insert_op_proj (os : List Op) (dd : ADoc) :
    let r := os.foldl (fun dd op => { dd with ops := insert_op dd.ops op }) dd
    r.queue = dd.queue ∧ r.history = dd.history ∧
      r.historyIndex = dd.historyIndex ∧ r.states = dd.states ∧
      r.deps = dd.deps ∧ r.maxOp = dd.maxOp ∧ r.actor = dd.actor := by
  induction os generalizing dd with
  | nil => exact ⟨rfl, rfl, rfl, rfl, rfl, rfl, rfl⟩
  | cons o rest ih => simpa using ih _

theorem apply_change_history (d : ADoc) (c : Change) :
    (apply_change d c).history = d.history ++ [c] := by
  unfold apply_change
  rw [(fold_insert_op_proj _ _).2.1]
  simp [update_history, update_deps]

theorem apply_change_historyIndex (d : ADoc) (c : Change) :
    (apply_change d c).historyIndex
      = insertA d.historyIndex c.hash d.history.length := by
  unfold apply_change
  rw [(fold_insert_op_proj _ _).2.2.1]
  simp [update_history, update_deps]

theorem apply_change_states (d : ADoc) (c : Change) :
    (apply_change d c).states
      = statesPush d.states c.actorId d.history.length := by
  unfold apply_change
  rw [(fold_insert_op_proj _ _).2.2.2.1]
  simp [update_history, update_deps]

theorem apply_change_deps (d : ADoc) (c : Change) :
    (apply_change d c).deps
      = hsInsert (c.deps.foldl hsErase d.deps) c.hash := by
  unfold apply_change
  rw [(fold_insert_op_proj _ _).2.2.2.2.1]
  simp [update_history, update_deps]

/-- Under `IndexInvP`, a hash is known iff it is a history hash. -/
theorem lookup_isSome_iff_mem_histHashes {d : ADoc} (hInv : IndexInvP d)
    {h : Nat} :
    (lookupA d.historyIndex h).isSome = true ↔ h ∈ histHashes d.history := by
  constructor
  · intro hs
    rcases Option.isSome_iff_exists.mp hs with ⟨j, hj⟩
    have hmem := hInv.1 _ (lookupA_mem hj)
    simp only at hmem
    rw [← hmem.2]
    exact hash_getD_mem_histHashes hmem.1
  · intro hm
    rcases mem_histHashes.mp hm with ⟨c, hc, hh⟩
    rcases List.getElem_of_mem hc with ⟨i, hi, hgi⟩
    have : (d.history.getD i default).hash = h := by
      rw [List.getD_eq_getElem d.history default hi, hgi, hh]
    have := hInv.2 i hi
    rw [‹(d.history.getD i default).hash = h›] at this
    simp [this]

/-- Deps of history entries are themselves history hashes. -/
theorem deps_subset_histHashes {d : ADoc} (hC : CausalInvP d) {c : Change}
    (hc : c ∈ d.history) {dep : Nat} (hd : dep ∈ c.deps) :
    dep ∈ histHashes d.history := by
  rcases List.getElem_of_mem hc with ⟨i, hi, hgi⟩
  have hgd : d.history.getD i default = c := by
    rw [List.getD_eq_getElem d.history default hi, hgi]
  rcases hC i hi dep (by rw [hgd]; exact hd) with ⟨j, hj, hhj⟩
  exact hhj ▸ hash_getD_mem_histHashes (hj.trans hi)

/-- One application step preserves the invariant. -/
theorem apply_change_inv {d : ADoc} {c : Change} (hInv : DocInv d)
    (hready : is_causally_ready d c = true)
    (hnew : lookupA d.historyIndex c.hash = none)
    (hself : c.hash ∉ c.deps)
    (hq : c.hash ∉ d.queue.map Change.hash) :
    DocInv (apply_change d c) := by
  obtain ⟨hIdx, hCausal, hNodup, hFront, hStates, hQueue⟩ := hInv
  have hlen : (apply_change d c).history.length = d.history.length + 1 := by
    rw [apply_change_history]; simp
  have hnewmem : c.hash ∉ histHashes d.history := by
    intro hmem
    have := (lookup_isSome_iff_mem_histHashes hIdx).mpr hmem
    rw [hnew] at this
    simp at this
  have hidxkeys : c.hash ∉ d.historyIndex.map Prod.fst :=
    lookupA_eq_none.mp hnew
  have hIdxEq : (apply_change d c).historyIndex
      = d.historyIndex ++ [(c.hash, d.history.length)] := by
    rw [apply_change_historyIndex, insertA_of_not_mem _ hidxkeys]
  have hgetD_old : ∀ i, i < d.history.length →
      ((d.history ++ [c]).getD i default) = d.history.getD i default := by
    intro i hi
    rw [List.getD_eq_getElem _ default (by simp; omega),
      List.getD_eq_getElem _ default hi]
    exact List.getElem_append_left hi
  have hgetD_new : ((d.history ++ [c]).getD d.history.length default) = c := by
    rw [List.getD_eq_getElem _ default (by simp)]
    simp
  refine ⟨⟨?_, ?_⟩, ?_, ?_, ?_, ?_, ?_⟩
  · -- IndexInvP part 1
    intro p hp
    rw [hIdxEq] at hp
    rw [apply_change_history]
    rcases List.mem_append.mp hp with hp | hp
    · have := hIdx.1 _ hp
      refine ⟨by simp; omega, ?_⟩
      rw [hgetD_old _ this.1]
      exact this.2
    · simp at hp
      subst hp
      refine ⟨by simp, ?_⟩
      simp only
      rw [hgetD_new]
  · -- IndexInvP part 2
    intro i hi
    rw [apply_change_history] at hi ⊢
    rw [hIdxEq]
    simp only [List.length_append, List.length_cons, List.length_nil] at hi
    rcases Nat.lt_or_ge i d.history.length with hlt | hge
    · rw [hgetD_old _ hlt]
      exact lookupA_append_left (hIdx.2 i hlt)
    · have : i = d.history.length := by omega
      subst this
      rw [hgetD_new]
      rw [lookupA_append_right hnew]
      simp [lookupA]
  · -- CausalInvP
    intro i hi dep hdep
    rw [apply_change_history] at hi hdep ⊢
    simp only [List.length_append, List.length_cons, List.length_nil] at hi
    rcases Nat.lt_or_ge i d.history.length with hlt | hge
    · rw [hgetD_old _ hlt] at hdep
      rcases hCausal i hlt dep hdep with ⟨j, hj, hhj⟩
      exact ⟨j, hj, by rw [hgetD_old _ (hj.trans hlt)]; exact hhj⟩
    · have : i = d.history.length := by omega
      subst this
      rw [hgetD_new] at hdep
      have := hready
      unfold is_causally_ready at this
      rw [List.all_eq_true] at this
      have hsome := this dep hdep
      rcases Option.isSome_iff_exists.mp (by simpa using hsome) with ⟨j, hj⟩
      have := hIdx.1 _ (lookupA_mem hj)
      exact ⟨j, this.1, by rw [hgetD_old _ this.1]; exact this.2⟩
  · -- HashNodupP
    unfold HashNodupP
    rw [apply_change_history]
    simp only [List.map_append, List.map_cons, List.map_nil]
    rw [List.nodup_append]
    refine ⟨hNodup, List.nodup_singleton _, ?_⟩
    simp only [List.disjoint_singleton]
    intro hx
    exact hnewmem (List.mem_toFinset.mpr hx)
  · -- FrontierInvP
    have hdd : ∀ x : Nat, x ∈ d.deps ↔
        (x ∈ histHashes d.history ∧ ∀ e ∈ d.history, x ∉ e.deps) := by
      intro x
      rw [← List.mem_toFinset, hFront.2]
      simp [frontierSet, Finset.mem_filter]
    constructor
    · rw [apply_change_deps]
      exact nodup_hsInsert (nodup_foldl_erase _ _ hFront.1) _
    · rw [apply_change_deps, apply_change_history]
      apply Finset.ext
      intro x
      rw [List.mem_toFinset, mem_hsInsert, mem_foldl_erase, hdd x]
      simp only [frontierSet, Finset.mem_filter, histHashes_append,
        Finset.mem_insert]
      constructor
      · rintro (hx | ⟨⟨hmem, hnd⟩, hnc⟩)
        · subst hx
          refine ⟨Or.inl rfl, ?_⟩
          intro e he
          rcases List.mem_append.mp he with he | he
          · intro hdep
            exact hnewmem (deps_subset_histHashes hCausal he hdep)
          · simp at he
            subst he
            exact hself
        · refine ⟨Or.inr hmem, ?_⟩
          intro e he
          rcases List.mem_append.mp he with he | he
          · exact hnd e he
          · simp at he; subst he; exact hnc
      · rintro ⟨hx | hx, hall⟩
        · exact Or.inl hx
        · right
          refine ⟨⟨hx, fun e he => hall e (List.mem_append_left _ he)⟩, ?_⟩
          exact hall c (List.mem_append_right _ (List.mem_singleton_self c))
  · -- StatesInvP
    intro p hp i hi
    rw [apply_change_states] at hp
    rw [hlen]
    unfold statesPush at hp
    rcases mem_insertA hp with hp | hp
    · subst hp
      simp only at hi
      rcases List.mem_append.mp hi with hi | hi
      · rcases hl : lookupA d.states c.actorId with _ | v
        · rw [hl] at hi; simp at hi
        · rw [hl] at hi
          simp only [Option.getD_some] at hi
          have := hStates _ (lookupA_mem hl) i hi
          omega
      · simp at hi
        omega
    · have := hStates _ hp i hi
      omega
  · -- QueueInvP
    have hqe : (apply_change d c).queue = d.queue := apply_change_queue d c
    constructor
    · intro q hq'
      rw [hqe] at hq'
      rw [apply_change_history, histHashes_append]
      have := hQueue.1 q hq'
      refine ⟨?_, this.2⟩
      simp only [Finset.mem_insert]
      push_neg
      refine ⟨?_, this.1⟩
      intro heq
      exact hq (heq ▸ List.mem_map_of_mem Change.hash hq')
    · rw [hqe]; exact hQueue.2

/-! ### The batch loop and the drain preserve the invariant -/

theorem enqueue_inv {d : ADoc} {c : Change} (hInv : DocInv d)
    (hnew : lookupA d.historyIndex c.hash = none)
    (hself : c.hash ∉ c.deps)
    (hq : c.hash ∉ d.queue.map Change.hash) :
    DocInv { d with queue := d.queue ++ [c] } := by
  obtain ⟨hIdx, hCausal, hNodup, hFront, hStates, hQueue⟩ := hInv
  refine ⟨hIdx, hCausal, hNodup, hFront, hStates, ?_, ?_⟩
  · intro q hq'
    simp only at hq'
    rcases List.mem_append.mp hq' with hq' | hq'
    · exact hQueue.1 q hq'
    · simp at hq'
      subst hq'
      refine ⟨?_, hself⟩
      intro hmem
      have := (lookup_isSome_iff_mem_histHashes hIdx).mpr hmem
      rw [hnew] at this
      simp at this
  · simp only [List.map_append, List.map_cons, List.map_nil]
    rw [List.nodup_append]
    exact ⟨hQueue.2, List.nodup_singleton _, by
      simp only [List.disjoint_singleton]
      exact hq⟩

theorem findIdxQ_prop {α : Type} [Inhabited α] {p : α → Bool} {l : List α}
    {i : Nat} (h : l.findIdx? p = some i) :
    ∃ hlt : i < l.length, p (l.getD i default) = true := by
  have hfi := List.findIdx?_eq_some_iff_findIdx_eq.mp h
  refine ⟨hfi.1, ?_⟩
  have hflt : l.findIdx p < l.length := by rw [hfi.2]; exact hfi.1
  have hp := @List.findIdx_getElem _ p l hflt
  rw [List.getD_eq_getElem l default hfi.1]
  have : l[l.findIdx p] = l[i] := by
    congr 1
    exact hfi.2
  rw [← this]
  exact hp

theorem processBatch_inv :
    ∀ {cs : List Change} {d d' : ADoc}, DocInv d → GoodBatch d cs →
      processBatch cs d = Except.ok d' → DocInv d' := by
  intro cs
  induction cs with
  | nil =>
      intro d d' hInv _ hok
      rw [processBatch] at hok
      cases hok
      exact hInv
  | cons c rest ih =>
      intro d d' hInv hGood hok
      rw [processBatch] at hok
      have hnd : (c.hash :: rest.map Change.hash).Nodup := by
        simpa using hGood.1
      have hndrest : (rest.map Change.hash).Nodup := (List.nodup_cons.mp hnd).2
      have hcnotrest : c.hash ∉ rest.map Change.hash :=
        (List.nodup_cons.mp hnd).1
      have hndrest' : (List.map Change.hash rest).Nodup := hndrest
      by_cases hseen : (lookupA d.historyIndex c.hash).isSome
      · rw [if_pos hseen] at hok
        refine ih hInv ⟨hndrest', ?_⟩ hok
        intro q hq'
        exact hGood.2 q (List.mem_cons_of_mem _ hq')
      · rw [if_neg hseen] at hok
        have hnew : lookupA d.historyIndex c.hash = none := by
          rcases hl : lookupA d.historyIndex c.hash with _ | v
          · rfl
          · rw [hl] at hseen; simp at hseen
        by_cases hdup : duplicate_seq d c
        · rw [if_pos hdup] at hok
          cases hok
        · rw [if_neg hdup] at hok
          have hcgood := hGood.2 c (List.mem_cons_self c rest)
          by_cases hready : is_causally_ready d c
          · rw [if_pos hready] at hok
            have hInv' := apply_change_inv hInv hready hnew hcgood.2 hcgood.1
            refine ih hInv' ⟨hndrest', ?_⟩ hok
            intro q hq'
            rw [apply_change_queue]
            exact hGood.2 q (List.mem_cons_of_mem _ hq')
          · rw [if_neg hready] at hok
            have hInv' := enqueue_inv hInv hnew hcgood.2 hcgood.1
            refine ih hInv' ⟨hndrest', ?_⟩ hok
            intro q hq'
            constructor
            · simp only [List.map_append, List.map_cons, List.map_nil,
                List.mem_append, List.mem_singleton]
              push_neg
              refine ⟨(hGood.2 q (List.mem_cons_of_mem _ hq')).1, ?_⟩
              intro heq
              exact hcnotrest (heq ▸ List.mem_map_of_mem Change.hash hq')
            · exact (hGood.2 q (List.mem_cons_of_mem _ hq')).2

theorem cons_getLastQ_of_ne_nil {α : Type} (a : α) {rest : List α}
    (h : rest ≠ []) : (a :: rest).getLast? = rest.getLast? := by
  match rest with
  | [] => exact absurd rfl h
  | b :: rs => rw [List.getLast?_cons_cons]

theorem swapRemove_perm {α : Type} :
    ∀ (l : List α) (i : Nat), i < l.length →
      (swapRemove l i).Perm (l.eraseIdx i) := by
  intro l
  induction l with
  | nil => intro i hi; simp at hi
  | cons a rest ih =>
      intro i hi
      rcases hrest : rest with _ | ⟨b, rs⟩
      · subst hrest
        simp only [List.length_cons, List.length_nil] at hi
        have hi0 : i = 0 := by omega
        subst hi0
        unfold swapRemove
        simp
      · subst hrest
        have hne : (b :: rs) ≠ [] := by simp
        have hgl : (b :: rs).getLast? = some ((b :: rs).getLast hne) :=
          List.getLast?_eq_getLast _ hne
        have hlastc : (a :: b :: rs).getLast? = (b :: rs).getLast? :=
          cons_getLastQ_of_ne_nil a hne
        rcases i with _ | j
        · have hsw : swapRemove (a :: b :: rs) 0
              = ((a :: b :: rs).set 0 ((b :: rs).getLast hne)).dropLast := by
            unfold swapRemove
            rw [hlastc, hgl]
          rw [hsw]
          simp only [List.set_cons_zero, List.eraseIdx_cons_zero]
          rw [List.dropLast_cons_of_ne_nil hne]
          have h1 : ((b :: rs).dropLast ++ [(b :: rs).getLast hne]).Perm
              ((b :: rs).getLast hne :: (b :: rs).dropLast) :=
            List.perm_append_singleton _ _
          have h3 : ((b :: rs).getLast hne :: (b :: rs).dropLast).Perm
              ((b :: rs).dropLast ++ [(b :: rs).getLast hne]) := h1.symm
          rw [List.dropLast_append_getLast hne] at h3
          exact h3
        · have hsw : swapRemove (a :: b :: rs) (j + 1)
              = ((a :: b :: rs).set (j + 1) ((b :: rs).getLast hne)).dropLast := by
            unfold swapRemove
            rw [hlastc, hgl]
          rw [hsw]
          rw [List.set_cons_succ, List.eraseIdx_cons_succ]
          have hsetne : (b :: rs).set j ((b :: rs).getLast hne) ≠ [] := by
            intro hnil
            have := congrArg List.length hnil
            simp at this
          rw [List.dropLast_cons_of_ne_nil hsetne]
          apply List.Perm.cons
          have hj : j < (b :: rs).length := by
            simp only [List.length_cons] at hi ⊢
            omega
          have hsw2 : swapRemove (b :: rs) j
              = ((b :: rs).set j ((b :: rs).getLast hne)).dropLast := by
            unfold swapRemove
            rw [hgl]
          have hIH := ih j hj
          rw [hsw2] at hIH
          exact hIH

theorem pop_ready_inv {d : ADoc} {c : Change} {d' : ADoc} (hInv : DocInv d)
    (hpop : pop_next_causally_ready_change d = some (c, d')) :
    DocInv (apply_change d' c) ∧
      (apply_change d' c).queue.length + 1 = d.queue.length := by
  obtain ⟨hIdx, hCausal, hNodup, hFront, hStates, hQueue⟩ := hInv
  unfold pop_next_causally_ready_change at hpop
  rcases hf : d.queue.findIdx? (fun c => is_causally_ready d c) with _ | i
  · rw [hf] at hpop; simp at hpop
  · rw [hf] at hpop
    simp only [Option.some.injEq, Prod.mk.injEq] at hpop
    obtain ⟨hc, hd'⟩ := hpop
    subst hd'
    have hi : i < d.queue.length := findIdxQ_lt_length hf
    have hqne : d.queue ≠ [] := by
      intro hnil; rw [hnil] at hi; simp at hi
    have hcmem : c ∈ d.queue := hc ▸ getD_mem_of_lt hi
    have hready : is_causally_ready d c = true := by
      rcases findIdxQ_prop hf with ⟨_, hp⟩
      rw [hc] at hp
      exact hp
    have hqperm : (swapRemove d.queue i).Perm (d.queue.eraseIdx i) :=
      swapRemove_perm d.queue i hi
    have herasublist : (d.queue.eraseIdx i).Sublist d.queue :=
      List.eraseIdx_sublist d.queue i
    have hqsub : ∀ q ∈ swapRemove d.queue i, q ∈ d.queue := by
      intro q hq
      exact herasublist.mem ((hqperm.mem_iff).mp hq)
    -- the split of the queue at position i
    have hsplit : d.queue.map Change.hash
        = ((d.queue.take i).map Change.hash) ++ c.hash ::
          ((d.queue.drop (i + 1)).map Change.hash) := by
      conv_lhs => rw [← List.take_append_drop i d.queue]
      rw [List.map_append]
      congr 1
      rw [List.drop_eq_getElem_cons hi]
      simp only [List.map_cons]
      congr 1
      rw [← hc, List.getD_eq_getElem d.queue default hi]
    have herasplit : (d.queue.eraseIdx i).map Change.hash
        = ((d.queue.take i).map Change.hash) ++
          ((d.queue.drop (i + 1)).map Change.hash) := by
      rw [List.eraseIdx_eq_take_drop_succ, List.map_append]
    have hqd' : c.hash ∉ (swapRemove d.queue i).map Change.hash := by
      intro hmem
      have hmem' : c.hash ∈ (d.queue.eraseIdx i).map Change.hash :=
        ((hqperm.map Change.hash).mem_iff).mp hmem
      rw [herasplit] at hmem'
      have hnodup := hQueue.2
      rw [hsplit] at hnodup
      rcases List.mem_append.mp hmem' with hm | hm
      · have hdisj := (List.nodup_append.mp hnodup).2.2
        exact hdisj hm (List.mem_cons_self _ _)
      · have hcons := ((List.nodup_append.mp hnodup).2.1)
        exact (List.nodup_cons.mp hcons).1 hm
    set dq : ADoc := { d with queue := swapRemove d.queue i } with hdq
    have hInvd' : DocInv dq := by
      refine ⟨hIdx, hCausal, hNodup, hFront, hStates, ?_, ?_⟩
      · intro q hq
        exact hQueue.1 q (hqsub q hq)
      · exact ((hqperm.map Change.hash).nodup_iff).mpr
          ((herasublist.map Change.hash).nodup hQueue.2)
    have hchash : c.hash ∉ histHashes d.history := (hQueue.1 c hcmem).1
    have hnew : lookupA d.historyIndex c.hash = none := by
      rcases hl : lookupA d.historyIndex c.hash with _ | v
      · rfl
      · exact absurd ((lookup_isSome_iff_mem_histHashes hIdx).mp (by simp [hl]))
          hchash
    have hready' : is_causally_ready dq c = true := hready
    have hself : c.hash ∉ c.deps := (hQueue.1 c hcmem).2
    refine ⟨apply_change_inv hInvd' hready' hnew hself hqd', ?_⟩
    rw [apply_change_queue]
    show (swapRemove d.queue i).length + 1 = d.queue.length
    rw [swapRemove_length d.queue i hqne]
    omega

theorem drainAux_fix :
    ∀ (n : Nat) (d : ADoc), d.queue.length ≤ n → DocInv d →
      DocInv (drainAux n d) ∧
        pop_next_causally_ready_change (drainAux n d) = none := by
  intro n
  induction n with
  | zero =>
      intro d hlen hInv
      have hq : d.queue = [] := by
        cases hq : d.queue with
        | nil => rfl
        | cons a l => rw [hq] at hlen; simp at hlen
      have hpop : pop_next_causally_ready_change d = none := by
        unfold pop_next_causally_ready_change
        rw [hq]
        rfl
      exact ⟨hInv, hpop⟩
  | succ n ih =>
      intro d hlen hInv
      rw [drainAux]
      cases hpop : pop_next_causally_ready_change d with
      | none => exact ⟨hInv, hpop⟩
      | some cd =>
          obtain ⟨hInv2, hlen2⟩ := pop_ready_inv hInv hpop
          exact ih _ (by omega) hInv2

theorem drainQueue_fix (d : ADoc) (hInv : DocInv d) :
    DocInv (drainQueue d) ∧
      pop_next_causally_ready_change (drainQueue d) = none :=
  drainAux_fix d.queue.length d (le_refl _) hInv

theorem apply_changes_inv {cs : List Change} {d d' : ADoc}
    (hInv : DocInv d) (hGood : GoodBatch d cs)
    (hok : apply_changes cs d = Except.ok d') :
    DocInv d' ∧ pop_next_causally_ready_change d' = none := by
  unfold apply_changes at hok
  cases hpb : processBatch cs d with
  | error e => rw [hpb] at hok; simp [Except.map] at hok
  | ok d'' =>
      rw [hpb] at hok
      simp only [Except.map, Except.ok.injEq] at hok
      subst hok
      have hInv2 := processBatch_inv hInv hGood hpb
      exact drainQueue_fix d'' hInv2

theorem newdoc_inv : DocInv ADoc.new := by decide

/-- No queued change is causally ready iff the pop finds nothing. -/
theorem pop_none_iff (d : ADoc) :
    pop_next_causally_ready_change d = none ↔
      ∀ c ∈ d.queue, ¬ is_causally_ready d c = true := by
  unfold pop_next_causally_ready_change
  cases hf : d.queue.findIdx? (fun c => is_causally_ready d c) with
  | none =>
      simp only [true_iff]
      intro c hc hr
      have := List.findIdx?_eq_none_iff.mp hf
      have := this c hc
      rw [hr] at this
      simp at this
  | some i =>
      constructor
      · intro h; simp at h
      · intro hall
        rcases findIdxQ_prop hf with ⟨hlt, hp⟩
        exact absurd hp (hall _ (getD_mem_of_lt hlt))

/-! ## Concrete documents for witnesses -/

instance {ε α : Type} [DecidableEq ε] [DecidableEq α] :
    DecidableEq (Except ε α) := fun x y =>
  match x, y with
  | Except.error a, Except.error b =>
      if h : a = b then isTrue (by rw [h])
      else isFalse (by intro hh; cases hh; exact h rfl)
  | Except.ok a, Except.ok b =>
      if h : a = b then isTrue (by rw [h])
      else isFalse (by intro hh; cases hh; exact h rfl)
  | Except.error _, Except.ok _ => isFalse (by intro hh; cases hh)
  | Except.ok _, Except.error _ => isFalse (by intro hh; cases hh)

def cW0 : Change :=
  { actorId := 7, seq := 1, startOp := 1, deps := [], hash := 100, ops := [] }

def cW1 : Change :=
  { actorId := 7, seq := 2, startOp := 1, deps := [100], hash := 101, ops := [] }

/-- The document after applying `[cW1, cW0]` (out of dependency order, so
`cW1` is queued and then drained) to a fresh document. -/
def stW : ADoc := (apply_changes [cW1, cW0] ADoc.new).toOption.getD ADoc.new

/-! ## C1: causal readiness -/

/-- C1: for every change c and every sequence of apply_changes calls, c is
appended to history only after every hash in c.deps is already present in
history_index (equivalently: every dep of a history entry is the hash of
an earlier history entry), and after the batch the queue holds no causally
ready change (the repeated scan stopped only when a full pass applied
nothing). -/
theorem causal_readiness (cs : List Change) (d d' : ADoc)
    (hInv : DocInv d) (hGood : GoodBatch d cs)
    (hok : apply_changes cs d = Except.ok d') :
    (∀ i, i < d'.history.length →
      ∀ dep ∈ (d'.history.getD i default).deps,
        ∃ j, j < i ∧ (d'.history.getD j default).hash = dep) ∧
    (∀ c ∈ d'.queue, ¬ is_causally_ready d' c = true) := by
  obtain ⟨hInv', hpop⟩ := apply_changes_inv hInv hGood hok
  exact ⟨hInv'.2.1, (pop_none_iff d').mp hpop⟩

/-- C1 witness: a batch delivered out of causal order on a fresh document;
the dependent change waits in the queue and is drained once its dep is in,
and the final state satisfies both conclusions. -/
theorem causal_readiness_witness :
    (∀ i, i < stW.history.length →
      ∀ dep ∈ (stW.history.getD i default).deps,
        ∃ j, j < i ∧ (stW.history.getD j default).hash = dep) ∧
    (∀ c ∈ stW.queue, ¬ is_causally_ready stW c = true) :=
  causal_readiness [cW1, cW0] ADoc.new stW (by decide) (by decide) (by decide)

/-! ## C2: frontier correctness -/

/-- C2: after any sequence of applied changes, get_heads returns exactly
the set of hashes of history changes that appear in no other applied
change's deps, as a vector sorted by hash (byte-lexicographic order on
digests is modelled by the numeric order). -/
theorem frontier_correctness (cs : List Change) (d d' : ADoc)
    (hInv : DocInv d) (hGood : GoodBatch d cs)
    (hok : apply_changes cs d = Except.ok d') :
    (∀ h, h ∈ get_heads d' ↔ h ∈ frontierSet d'.history) ∧
    (get_heads d').Sorted (· ≤ ·) ∧ (get_heads d').Nodup := by
  obtain ⟨hInv', -⟩ := apply_changes_inv hInv hGood hok
  have hFront := hInv'.2.2.2.1
  refine ⟨?_, ?_, ?_⟩
  · intro h
    unfold get_heads
    rw [(List.perm_insertionSort _ _).mem_iff]
    rw [← List.mem_toFinset, hFront.2]
  · exact List.sorted_insertionSort _ _
  · exact ((List.perm_insertionSort _ _).nodup_iff).mpr hFront.1

/-- C2 witness: the concrete document after `[cW1, cW0]`: the only
non-dominated change is cW1 (hash 101). -/
theorem frontier_correctness_witness :
    (∀ h, h ∈ get_heads stW ↔ h ∈ frontierSet stW.history) ∧
    get_heads stW = [101] :=
  ⟨(frontier_correctness [cW1, cW0] ADoc.new stW (by decide) (by decide)
      (by decide)).1,
    by decide⟩

/-! ## C3: duplicate handling -/

/-- C3: a change whose hash is already indexed is skipped without touching
any state (the whole run is the run without it), and apply_changes ends in
the DuplicateSeqNumber error iff the batch loop meets a change with an
unseen hash whose seq is at most the number of changes already recorded
from its actor at that point. -/
theorem duplicate_handling :
    (∀ (d : ADoc) (c : Change) (cs : List Change),
      (lookupA d.historyIndex c.hash).isSome = true →
      apply_changes (c :: cs) d = apply_changes cs d) ∧
    (∀ (cs : List Change) (d : ADoc),
      (∃ s a, apply_changes cs d
          = Except.error (AutomergeError.duplicateSeqNumber s a)) ↔
      (∃ i, i < cs.length ∧ ∃ d'',
        processBatch (cs.take i) d = Except.ok d'' ∧
        lookupA d''.historyIndex ((cs.getD i default).hash) = none ∧
        duplicate_seq d'' (cs.getD i default) = true)) := by
  constructor
  · intro d c cs hseen
    unfold apply_changes
    rw [processBatch, if_pos hseen]
  · have herr : ∀ (cs : List Change) (d : ADoc),
        (∃ s a, processBatch cs d
            = Except.error (AutomergeError.duplicateSeqNumber s a)) ↔
        (∃ i, i < cs.length ∧ ∃ d'',
          processBatch (cs.take i) d = Except.ok d'' ∧
          lookupA d''.historyIndex ((cs.getD i default).hash) = none ∧
          duplicate_seq d'' (cs.getD i default) = true) := by
      intro cs
      induction cs with
      | nil =>
          intro d
          constructor
          · rintro ⟨s, a, h⟩
            rw [processBatch] at h
            cases h
          · rintro ⟨i, hi, _⟩
            simp at hi
      | cons c rest ih =>
          intro d
          rw [processBatch]
          by_cases hseen : (lookupA d.historyIndex c.hash).isSome
          · rw [if_pos hseen]
            rw [ih d]
            constructor
            · rintro ⟨i, hi, d'', h1, h2, h3⟩
              refine ⟨i + 1, by simpa using Nat.succ_lt_succ hi, d'', ?_, h2, h3⟩
              rw [List.take_succ_cons, processBatch, if_pos hseen]
              exact h1
            · rintro ⟨i, hi, d'', h1, h2, h3⟩
              cases i with
              | zero =>
                  simp only [List.take_zero, processBatch] at h1
                  cases h1
                  rw [List.getD_cons_zero] at h2
                  rw [h2] at hseen
                  simp at hseen
              | succ j =>
                  rw [List.take_succ_cons, processBatch, if_pos hseen] at h1
                  exact ⟨j, by simpa using Nat.lt_of_succ_lt_succ hi, d'',
                    h1, h2, h3⟩
          · rw [if_neg hseen]
            have hnone : lookupA d.historyIndex c.hash = none := by
              rcases hl : lookupA d.historyIndex c.hash with _ | v
              · rfl
              · rw [hl] at hseen; simp at hseen
            by_cases hdup : duplicate_seq d c
            · rw [if_pos hdup]
              constructor
              · intro _
                exact ⟨0, by simp, d, by rw [List.take_zero, processBatch],
                  by rw [List.getD_cons_zero]; exact hnone,
                  by rw [List.getD_cons_zero]; exact hdup⟩
              · intro _
                exact ⟨c.seq, c.actorId, rfl⟩
            · rw [if_neg hdup]
              have hstep : ∀ d₂ : ADoc,
                  processBatch rest d₂
                    = processBatch (c :: rest)
                      (if is_causally_ready d c then d else d) →
                  True := fun _ _ => trivial
              by_cases hready : is_causally_ready d c
              · rw [if_pos hready]
                rw [ih (apply_change d c)]
                constructor
                · rintro ⟨i, hi, d'', h1, h2, h3⟩
                  refine ⟨i + 1, by simpa using Nat.succ_lt_succ hi, d'', ?_,
                    h2, h3⟩
                  rw [List.take_succ_cons, processBatch, if_neg hseen,
                    if_neg hdup, if_pos hready]
                  exact h1
                · rintro ⟨i, hi, d'', h1, h2, h3⟩
                  cases i with
                  | zero =>
                      simp only [List.take_zero, processBatch] at h1
                      cases h1
                      rw [List.getD_cons_zero] at h3
                      exact absurd h3 (by simpa using hdup)
                  | succ j =>
                      rw [List.take_succ_cons, processBatch, if_neg hseen,
                        if_neg hdup, if_pos hready] at h1
                      exact ⟨j, by simpa using Nat.lt_of_succ_lt_succ hi,
                        d'', h1, h2, h3⟩
              · rw [if_neg hready]
                rw [ih { d with queue := d.queue ++ [c] }]
                constructor
                · rintro ⟨i, hi, d'', h1, h2, h3⟩
                  refine ⟨i + 1, by simpa using Nat.succ_lt_succ hi, d'', ?_,
                    h2, h3⟩
                  rw [List.take_succ_cons, processBatch, if_neg hseen,
                    if_neg hdup, if_neg hready]
                  exact h1
                · rintro ⟨i, hi, d'', h1, h2, h3⟩
                  cases i with
                  | zero =>
                      simp only [List.take_zero, processBatch] at h1
                      cases h1
                      rw [List.getD_cons_zero] at h3
                      exact absurd h3 (by simpa using hdup)
                  | succ j =>
                      rw [List.take_succ_cons, processBatch, if_neg hseen,
                        if_neg hdup, if_neg hready] at h1
                      exact ⟨j, by simpa using Nat.lt_of_succ_lt_succ hi,
                        d'', h1, h2, h3⟩
    intro cs d
    rw [← herr cs d]
    unfold apply_changes
    constructor
    · rintro ⟨s, a, h⟩
      cases hpb : processBatch cs d with
      | error e =>
          rw [hpb] at h
          simp only [Except.map] at h
          cases h
          exact ⟨s, a, rfl⟩
      | ok d'' =>
          rw [hpb] at h
          simp [Except.map] at h
    · rintro ⟨s, a, h⟩
      rw [h]
      exact ⟨s, a, rfl⟩

/-- C3 witness: on the concrete post-batch document, a change with an
already-seen hash is a no-op for the whole call, and a fresh-hash change
reusing seq 1 of actor 7 makes the batch fail. -/
theorem duplicate_handling_witness :
    apply_changes [cW0] stW = apply_changes [] stW ∧
    (∃ s a, apply_changes
        [{ actorId := 7, seq := 1, startOp := 5, deps := [101], hash := 999,
           ops := [] }] stW
      = Except.error (AutomergeError.duplicateSeqNumber s a)) :=
  ⟨duplicate_handling.1 stW cW0 [] (by decide),
    (duplicate_handling.2 _ stW).mpr
      ⟨0, by decide, stW, by rfl, by decide, by decide⟩⟩

/-! ## C8: transaction dependency set -/

/-- C8: the transaction's deps equal the frontier at tx() time; when the
transacting actor has already produced a change (seq > 1), the previous
change's hash, obtained by get_hash(actor, seq - 1), is additionally
included. -/
theorem tx_dependency (d : ADoc) (a : Nat) (hInv : DocInv d)
    (_hactor : d.actor = some a) :
    (txSeq d a = 1 → tx_deps d a = get_heads d) ∧
    (1 < txSeq d a → ∃ lh, get_hash d a (txSeq d a - 1) = Except.ok lh ∧
      (tx_deps d a).toFinset = insert lh (get_heads d).toFinset) := by
  constructor
  · intro hseq
    unfold tx_deps
    rw [hseq]
    simp
  · intro hseq
    have hStates : StatesInvP d := hInv.2.2.2.2.1
    rcases hl : lookupA d.states a with _ | v
    · exfalso
      unfold txSeq at hseq
      rw [hl] at hseq
      simp at hseq
    · have hlen : 1 ≤ v.length := by
        unfold txSeq at hseq
        rw [hl] at hseq
        simp only [Option.getD_some] at hseq
        omega
      have hvseq : txSeq d a - 1 - 1 = v.length - 1 := by
        unfold txSeq
        rw [hl]
        simp only [Option.getD_some]
        omega
      have hget : v.get? (v.length - 1) = some (v.getD (v.length - 1) 0) := by
        rw [List.get?_eq_getElem?, List.getElem?_eq_getElem (by omega)]
        rw [List.getD_eq_getElem v 0 (by omega)]
      have hidx : v.getD (v.length - 1) 0 < d.history.length := by
        have hmemv : v.getD (v.length - 1) 0 ∈ v := getD_mem_of_lt (by omega)
        exact hStates _ (lookupA_mem hl) _ hmemv
      have hhist : d.history.get? (v.getD (v.length - 1) 0)
          = some (d.history.getD (v.getD (v.length - 1) 0) default) := by
        rw [List.get?_eq_getElem?, List.getElem?_eq_getElem hidx]
        rw [List.getD_eq_getElem d.history default hidx]
      have hghash : get_hash d a (txSeq d a - 1)
          = Except.ok (d.history.getD (v.getD (v.length - 1) 0) default).hash := by
        unfold get_hash
        rw [hl]
        simp only [Option.some_bind]
        rw [hvseq, hget]
        simp only [Option.some_bind]
        rw [hhist]
      refine ⟨(d.history.getD (v.getD (v.length - 1) 0) default).hash,
        hghash, ?_⟩
      unfold tx_deps
      rw [if_pos hseq]
      rw [hghash]
      show (if (d.history.getD (v.getD (v.length - 1) 0) default).hash
            ∈ get_heads d then get_heads d
          else get_heads d
            ++ [(d.history.getD (v.getD (v.length - 1) 0) default).hash]).toFinset
        = insert (d.history.getD (v.getD (v.length - 1) 0) default).hash
            (get_heads d).toFinset
      by_cases hmem : (d.history.getD (v.getD (v.length - 1) 0) default).hash
          ∈ get_heads d
      · rw [if_pos hmem]
        rw [Finset.insert_eq_self.mpr (List.mem_toFinset.mpr hmem)]
      · rw [if_neg hmem]
        rw [List.toFinset_append]
        simp [Finset.insert_eq, Finset.union_comm]

/-- C8 witness: a concrete document where actor 7 has two recorded
changes; the next transaction's deps are the frontier plus the hash of
the actor's change number 2. -/
def stW8 : ADoc := { stW with actor := some 7 }

theorem tx_dependency_witness :
    1 < txSeq stW8 7 ∧
    ∃ lh, get_hash stW8 7 (txSeq stW8 7 - 1) = Except.ok lh ∧
      (tx_deps stW8 7).toFinset = insert lh (get_heads stW8).toFinset :=
  ⟨by decide,
    (tx_dependency stW8 7 (by decide) (by decide)).2 (by decide)⟩

/-! ## C4: counter semantics -/

/-- The delta carried by an `Inc` op (0 for other actions). -/
def incDelta (o : Op) : Int :=
  match o.action with
  | OpType.inc δ => δ
  | _ => 0

/-- Sum of the `Inc` deltas of a run of ops. -/
def sumDeltas (l : List Op) : Int := (l.map incDelta).sum

theorem lamport_cmp_self (x : OpId) : lamport_cmp x x = Ordering.eq := by
  unfold lamport_cmp
  rw [compare_eq_iff_eq.mpr rfl, compare_eq_iff_eq.mpr rfl]
  rfl

theorem prop_cmp_self_map (k : String) :
    prop_cmp (Key.map k) (Key.map k) = Ordering.eq := by
  unfold prop_cmp
  exact compare_eq_iff_eq.mpr rfl

theorem bsearchAux_all_not_lt (node : List Op) (f : Op → Ordering)
    (hall : ∀ x ∈ node, f x ≠ Ordering.lt) :
    ∀ (fuel left right : Nat), right ≤ node.length →
      bsearchAux node f fuel left right = left := by
  intro fuel
  induction fuel with
  | zero => intro left right _; rfl
  | succ n ih =>
      intro left right hle
      rw [bsearchAux]
      by_cases hlr : left < right
      · rw [if_pos hlr]
        have hseq : (left + right) / 2 < node.length := by omega
        have hmem : node.getD ((left + right) / 2) default ∈ node :=
          getD_mem_of_lt hseq
        rw [if_neg (hall _ hmem)]
        exact ih left ((left + right) / 2) (by omega)
      · rw [if_neg hlr]

theorem binary_search_by_zero (node : List Op) (f : Op → Ordering)
    (hall : ∀ x ∈ node, f x ≠ Ordering.lt) :
    binary_search_by node f = 0 :=
  bsearchAux_all_not_lt node f hall node.length 0 node.length (le_refl _)

theorem cLookup_cInsert_self (m : CounterMap) (k : OpId) (v : CounterData) :
    cLookup (cInsert m k v) k = some v := by
  induction m with
  | nil => simp [cInsert, cLookup]
  | cons p rest ih =>
      rw [cInsert]
      by_cases hk : p.1 = k
      · rw [if_pos hk, cLookup, if_pos hk]
      · rw [if_neg hk, cLookup, if_neg hk]
        exact ih

theorem cLookup_cAdjust_self (m : CounterMap) (k : OpId)
    (f : CounterData → CounterData) :
    cLookup (cAdjust m k f) k = (cLookup m k).map f := by
  induction m with
  | nil => simp [cAdjust, cLookup]
  | cons p rest ih =>
      rw [cAdjust]
      by_cases hk : p.1 = k
      · rw [if_pos hk, cLookup, if_pos hk, cLookup, if_pos hk]
        rfl
      · rw [if_neg hk, cLookup, if_neg hk, cLookup, if_neg hk]
        exact ih

theorem drop_cons_succ {α : Type} {l : List α} {n : Nat} {a : α}
    {t : List α} (h : l.drop n = a :: t) : l.drop (n + 1) = t := by
  have h2 := congrArg (List.drop 1) h
  rw [List.drop_drop] at h2
  simpa using h2

theorem getD_of_drop_cons {α : Type} [Inhabited α] {l : List α} {n : Nat}
    {a : α} {t : List α} (h : l.drop n = a :: t) (hn : n < l.length) :
    l.getD n default = a := by
  have hsplit : l.take n ++ (a :: t) = l := by
    rw [← h]
    exact List.take_append_drop n l
  have htake : (l.take n).length = n := by
    rw [List.length_take]
    omega
  conv_lhs => rw [← hsplit]
  rw [List.getD_append_right _ _ _ _ (le_of_eq htake)]
  rw [htake]
  simp

theorem op_set_action_twice (o : Op) (a b : OpType) :
    ({ ({ o with action := a } : Op) with action := b } : Op)
      = { o with action := b } := rfl

/-- The inc-scan segment of `PropQuery`: with a counter entry pending at
`cid` whose outstanding `succ` set is exactly the ids of the remaining
`Inc` run, the scan consumes every `Inc` and pushes the accumulated
counter once, when the last inc empties the `succ` set. -/
theorem propLoop_incs (cid : OpId) :
    ∀ (rem : List Op) (child : List Op) (obj : OpId) (k : String)
      (pos : Nat) (counters : CounterMap) (accOps : List Op)
      (accPos : List Nat) (entry : CounterData),
      child.drop pos = rem →
      (∀ o ∈ rem, o.obj = obj ∧ o.key = Key.map k ∧ o.pred = [cid] ∧
        o.action = OpType.inc (incDelta o)) →
      cLookup counters cid = some entry →
      entry.succ = (rem.map Op.id).toFinset →
      (rem.map Op.id).Nodup →
      rem ≠ [] →
      propLoop child obj (Key.map k) pos counters accOps accPos
        = (accOps ++ [{ entry.op with
            action := OpType.set (ScalarValue.counter (entry.val + sumDeltas rem)) }],
           accPos ++ [entry.pos]) := by
  intro rem
  induction rem with
  | nil => intro _ _ _ _ _ _ _ _ _ _ _ _ _ hne; exact absurd rfl hne
  | cons i0 rest ih =>
      intro child obj k pos counters accOps accPos entry hdrop hall hlook
        hsucc hnodup _
      have hpos : pos < child.length := by
        by_contra hge
        rw [List.drop_eq_nil_of_le (by omega)] at hdrop
        cases hdrop
      have hhead : child.getD pos default = i0 := getD_of_drop_cons hdrop hpos
      have hnodup2 : (i0.id :: rest.map Op.id).Nodup := by
        rw [List.map_cons] at hnodup
        exact hnodup
      have hid_notin : i0.id ∉ rest.map Op.id := (List.nodup_cons.mp hnodup2).1
      have hnodup_rest : (rest.map Op.id).Nodup := (List.nodup_cons.mp hnodup2).2
      have hi0 := hall i0 (List.mem_cons_self _ _)
      rw [propLoop, dif_pos hpos, hhead, if_pos ⟨hi0.1, hi0.2.1⟩]
      have hvis : is_visible i0 pos counters
          = (decide ((entry.succ.erase i0.id) = ∅),
             cAdjust counters cid (fun _ =>
               { entry with
                 succ := entry.succ.erase i0.id
                 val := entry.val + incDelta i0
                 op := { entry.op with
                   action := OpType.set
                     (ScalarValue.counter (entry.val + incDelta i0)) } })) := by
        unfold is_visible
        rw [hi0.2.2.2]
        rw [hi0.2.2.1]
        simp only [List.foldl_cons, List.foldl_nil]
        unfold incStep
        rw [hlook]
        simp
      rw [hvis]
      have hdrop' : child.drop (pos + 1) = rest := drop_cons_succ hdrop
      by_cases hrest : rest = []
      · -- last inc: it empties the succ set and is pushed
        subst hrest
        have hempty : entry.succ.erase i0.id = ∅ := by
          rw [hsucc]
          simp
        have hcond : decide ((entry.succ.erase i0.id) = ∅) = true := by
          rw [hempty]
          exact decide_eq_true rfl
        rw [hcond, if_pos rfl]
        have hvop : visible_op i0 pos
            (cAdjust counters cid (fun _ =>
              { entry with
                succ := entry.succ.erase i0.id
                val := entry.val + incDelta i0
                op := { entry.op with
                  action := OpType.set
                    (ScalarValue.counter (entry.val + incDelta i0)) } }))
            = (entry.pos, { entry.op with
                action := OpType.set
                  (ScalarValue.counter (entry.val + incDelta i0)) }) := by
        
          unfold visible_op
          rw [hi0.2.2.1]
          simp only [List.findSome?_cons]
          rw [cLookup_cAdjust_self, hlook]
          rfl
        rw [hvop]
        rw [propLoop]
        rw [dif_neg (by
          have := List.drop_eq_nil_iff_le.mp hdrop'
          omega)]
        have hval : entry.val + incDelta i0 = entry.val + sumDeltas [i0] := by
          simp [sumDeltas]
        rw [hval]
      · -- more incs follow: not yet visible, recurse
        have hne : ¬ (entry.succ.erase i0.id = ∅) := by
          rw [hsucc]
          intro hnil
          rcases List.exists_mem_of_ne_nil (rest.map Op.id)
            (fun hmapnil => hrest (List.map_eq_nil.mp hmapnil)) with ⟨x, hx⟩
          have hxmem : x ∈ ((i0 :: rest).map Op.id).toFinset.erase i0.id := by
            rw [Finset.mem_erase]
            refine ⟨?_, ?_⟩
            · intro hxeq
              exact hid_notin (hxeq ▸ hx)
            · rw [List.mem_toFinset, List.map_cons]
              exact List.mem_cons_of_mem _ hx
          rw [hnil] at hxmem
          simp at hxmem
        have hcond : decide ((entry.succ.erase i0.id) = ∅) = false := by
          simpa using hne
        rw [hcond, if_neg (by simp)]
        have hlook' : cLookup (cAdjust counters cid (fun _ =>
            { entry with
              succ := entry.succ.erase i0.id
              val := entry.val + incDelta i0
              op := { entry.op with
                action := OpType.set
                  (ScalarValue.counter (entry.val + incDelta i0)) } })) cid
            = some { entry with
              succ := entry.succ.erase i0.id
              val := entry.val + incDelta i0
              op := { entry.op with
                action := OpType.set
                  (ScalarValue.counter (entry.val + incDelta i0)) } } := by
          rw [cLookup_cAdjust_self, hlook]
          rfl
        have hsucc' : entry.succ.erase i0.id = (rest.map Op.id).toFinset := by
          rw [hsucc, List.map_cons, List.toFinset_cons]
          exact Finset.erase_insert (by rw [List.mem_toFinset]; exact hid_notin)
        have hih := ih child obj k (pos + 1)
          (cAdjust counters cid (fun _ =>
            { entry with
              succ := entry.succ.erase i0.id
              val := entry.val + incDelta i0
              op := { entry.op with
                action := OpType.set
                  (ScalarValue.counter (entry.val + incDelta i0)) } }))
          accOps accPos
          { entry with
            succ := entry.succ.erase i0.id
            val := entry.val + incDelta i0
            op := { entry.op with
              action := OpType.set
                (ScalarValue.counter (entry.val + incDelta i0)) } }
          hdrop'
          (fun o ho => hall o (List.mem_cons_of_mem _ ho))
          hlook' hsucc' hnodup_rest hrest
        rw [hih]
        simp only [op_set_action_twice]
        have hval : entry.val + incDelta i0 + sumDeltas rest
            = entry.val + sumDeltas (i0 :: rest) := by
          simp only [sumDeltas, List.map_cons, List.sum_cons]
          ring
        rw [hval]

/-- C4: a counter started by `Set(Counter v0)` with each `Inc` naming it
in `pred` (and the `succ`/`pred` symmetry of spec section 3.2 wiring the
counter's `succ` to exactly those incs) reports a single value — the incs
are consumed — equal to `Counter (v0 + Σ deltas)`; `value` returns it. -/
theorem counter_semantics (cOp : Op) (incs : List Op) (k : String)
    (v0 : Int)
    (hkey : cOp.key = Key.map k)
    (hact : cOp.action = OpType.set (ScalarValue.counter v0))
    (hsucc : cOp.succ = incs.map Op.id)
    (hpredself : cOp.id ∉ cOp.pred)
    (hincs : ∀ o ∈ incs, o.obj = cOp.obj ∧ o.key = cOp.key ∧
      o.pred = [cOp.id] ∧ o.action = OpType.inc (incDelta o))
    (hnodup : (incs.map Op.id).Nodup) :
    values_map (cOp :: incs) cOp.obj k
      = [(Value.scalar (ScalarValue.counter (v0 + sumDeltas incs)), cOp.id)] ∧
    value_map (cOp :: incs) cOp.obj k
      = some (Value.scalar (ScalarValue.counter (v0 + sumDeltas incs)), cOp.id) := by
  suffices h : (propQuery (cOp :: incs) cOp.obj (Key.map k)).1
      = [{ cOp with
          action := OpType.set (ScalarValue.counter (v0 + sumDeltas incs)) }] by
    constructor
    · unfold values_map
      rw [h]
      rfl
    · unfold value_map values_map
      rw [h]
      rfl
  have hallf : ∀ x ∈ (cOp :: incs),
      (fun op => (lamport_cmp op.obj cOp.obj).then
        (prop_cmp op.key (Key.map k))) x ≠ Ordering.lt := by
    intro x hx
    rcases List.mem_cons.mp hx with hx | hx
    · subst hx
      simp only
      rw [lamport_cmp_self, hkey, prop_cmp_self_map]
      intro hcontra
      cases hcontra
    · have hx' := hincs x hx
      simp only
      rw [hx'.1, lamport_cmp_self, hx'.2.1, hkey, prop_cmp_self_map]
      intro hcontra
      cases hcontra
  unfold propQuery
  rw [binary_search_by_zero _ _ hallf]
  rw [propLoop, dif_pos (by simp)]
  rw [List.getD_cons_zero]
  rw [if_pos ⟨rfl, hkey⟩]
  have hvis0 : is_visible cOp 0 []
      = (cOp.succ.isEmpty,
         cInsert [] cOp.id
           { pos := 0, val := v0, succ := cOp.succ.toFinset, op := cOp }) := by
    unfold is_visible
    rw [hact]
  rw [hvis0]
  by_cases hincse : incs = []
  · subst hincse
    have hsuccnil : cOp.succ = [] := by simpa using hsucc
    have hcond : cOp.succ.isEmpty = true := by rw [hsuccnil]; rfl
    rw [hcond, if_pos rfl]
    have hvop : visible_op cOp 0
        (cInsert [] cOp.id
          { pos := 0, val := v0, succ := cOp.succ.toFinset, op := cOp })
        = (0, cOp) := by
      unfold visible_op
      rw [List.findSome?_eq_none_iff.mpr ?_]
      · intro x hx
        have hxne : ¬ (cOp.id = x) := fun heq => hpredself (heq ▸ hx)
        unfold cInsert cLookup
        rw [if_neg hxne]
        rfl
    rw [hvop]
    rw [propLoop, dif_neg (by simp)]
    have h0 : v0 + sumDeltas [] = v0 := by simp [sumDeltas]
    rw [h0, ← hact]
    rfl
  · have hcond : cOp.succ.isEmpty = false := by
      rw [hsucc]
      cases incs with
      | nil => exact absurd rfl hincse
      | cons a t => rfl
    rw [hcond, if_neg (by simp)]
    have hlook : cLookup
        (cInsert [] cOp.id
          { pos := 0, val := v0, succ := cOp.succ.toFinset, op := cOp })
        cOp.id
        = some { pos := 0, val := v0, succ := cOp.succ.toFinset, op := cOp } :=
      cLookup_cInsert_self _ _ _
    have := propLoop_incs cOp.id incs (cOp :: incs) cOp.obj k 1
      (cInsert [] cOp.id
        { pos := 0, val := v0, succ := cOp.succ.toFinset, op := cOp })
      [] []
      { pos := 0, val := v0, succ := cOp.succ.toFinset, op := cOp }
      rfl
      (fun o ho =>
        ⟨(hincs o ho).1, by rw [(hincs o ho).2.1, hkey], (hincs o ho).2.2.1,
          (hincs o ho).2.2.2⟩)
      hlook
      (by simp only; rw [hsucc])
      hnodup hincse
    rw [this]
    rfl

/-- The S4 scenario ops: `set(root,"c",Counter(10))`, `inc(root,"c",10)`,
`inc(root,"c",-5)`, wired with the spec's `pred`/`succ` symmetry. -/
def cntW : Op :=
  { id := ⟨2, 0⟩, change := 1, obj := rootObj, key := Key.map "c"
    action := OpType.set (ScalarValue.counter 10), pred := []
    succ := [⟨3, 0⟩, ⟨4, 0⟩], insert := false }

def incW1 : Op :=
  { cntW with
    id := ⟨3, 0⟩
    action := OpType.inc 10
    pred := [⟨2, 0⟩]
    succ := [] }

def incW2 : Op :=
  { cntW with
    id := ⟨4, 0⟩
    action := OpType.inc (-5)
    pred := [⟨2, 0⟩]
    succ := [] }

/-- C4 witness: the S4 scenario evaluates to `Counter 15`. -/
theorem counter_semantics_witness :
    value_map [cntW, incW1, incW2] rootObj "c"
      = some (Value.scalar (ScalarValue.counter 15), ⟨2, 0⟩) := by
  have h := (counter_semantics cntW [incW1, incW2] "c" 10 rfl rfl rfl
    (by decide) (by decide) (by decide)).2
  have hs : (10 : Int) + sumDeltas [incW1, incW2] = 15 := by decide
  rw [hs] at h
  exact h

/-! ## C6: RGA list order (spec scenario S2)

The insertion pipeline (`Transaction::insert` and the `SeekOp` placement)
is not under src/; the ops below carry the keys the spec mandates (each
insert anchors at the element currently at the target index) and are
placed by the modelled RGA `seekInsertPos`. -/

def listObj : OpId := ⟨1, 0⟩

def insA : Op :=
  { id := ⟨2, 0⟩, change := 1, obj := listObj, key := Key.seq none
    action := OpType.set (ScalarValue.str "a"), pred := [], succ := []
    insert := true }

def insB : Op :=
  { insA with
    id := ⟨3, 0⟩
    change := 2
    action := OpType.set (ScalarValue.str "b") }

def insC : Op :=
  { insA with
    id := ⟨4, 0⟩
    change := 3
    action := OpType.set (ScalarValue.str "c") }

def insD : Op :=
  { insA with
    id := ⟨5, 0⟩
    change := 4
    key := Key.seq (some ⟨4, 0⟩)
    action := OpType.set (ScalarValue.str "d") }

/-- The op list after inserting "a", "b", "c" at index 0 and "d" at
index 1 (anchored at "c", the element at index 0). -/
def listScenario : List Op :=
  insert_op (insert_op (insert_op (insert_op [] insA) insB) insC) insD

/-- C6: the scenario yields visible order ["c", "d", "b", "a"], with the
HEAD siblings stored in descending Lamport order (c=4, b=3, a=2) and "d"
immediately after its anchor "c". -/
theorem rga_list_order :
    values_seq listScenario listObj 0
      = [(Value.scalar (ScalarValue.str "c"), ⟨4, 0⟩)] ∧
    values_seq listScenario listObj 1
      = [(Value.scalar (ScalarValue.str "d"), ⟨5, 0⟩)] ∧
    values_seq listScenario listObj 2
      = [(Value.scalar (ScalarValue.str "b"), ⟨3, 0⟩)] ∧
    values_seq listScenario listObj 3
      = [(Value.scalar (ScalarValue.str "a"), ⟨2, 0⟩)] ∧
    listScenario.map Op.id = [⟨4, 0⟩, ⟨5, 0⟩, ⟨3, 0⟩, ⟨2, 0⟩] := by
  decide

/-! ## C7: conflict reporting order -/

/-- A plain (non-counter) `Set` op. -/
def plainSet (o : Op) : Bool :=
  match o.action with
  | OpType.set (ScalarValue.counter _) => false
  | OpType.set _ => true
  | _ => false

theorem is_visible_plain {o : Op} (h : plainSet o = true) (pos : Nat) :
    is_visible o pos [] = (o.succ.isEmpty, []) := by
  unfold is_visible
  cases hact : o.action with
  | set v =>
      cases v with
      | counter w =>
          exfalso
          unfold plainSet at h
          rw [hact] at h
          simp at h
      | int w => rfl
      | str s => rfl
      | null => rfl
  | make k => rfl
  | inc δ =>
      exfalso
      unfold plainSet at h
      rw [hact] at h
      simp at h
  | del => rfl

theorem visible_op_empty (o : Op) (pos : Nat) :
    visible_op o pos [] = (pos, o) := by
  unfold visible_op
  have h : List.findSome? (fun pred => cLookup [] pred) o.pred = none :=
    List.findSome?_eq_none_iff.mpr (fun x _ => rfl)
  rw [h]

/-- The `PropQuery` scan over a run of plain `Set` ops keeps exactly the
ops with empty `succ`, in storage order. -/
theorem propLoop_plain :
    ∀ (rem child : List Op) (obj : OpId) (k : String) (pos : Nat)
      (accOps : List Op) (accPos : List Nat),
      child.drop pos = rem →
      (∀ o ∈ rem, o.obj = obj ∧ o.key = Key.map k ∧ plainSet o = true) →
      (propLoop child obj (Key.map k) pos [] accOps accPos).1
        = accOps ++ rem.filter (fun o => o.succ.isEmpty) := by
  intro rem
  induction rem with
  | nil =>
      intro child obj k pos accOps accPos hdrop _
      rw [propLoop, dif_neg (by
        have := List.drop_eq_nil_iff_le.mp hdrop
        omega)]
      simp
  | cons o rest ih =>
      intro child obj k pos accOps accPos hdrop hall
      have hpos : pos < child.length := by
        by_contra hge
        rw [List.drop_eq_nil_of_le (by omega)] at hdrop
        cases hdrop
      have hhead : child.getD pos default = o := getD_of_drop_cons hdrop hpos
      have ho := hall o (List.mem_cons_self _ _)
      rw [propLoop, dif_pos hpos, hhead, if_pos ⟨ho.1, ho.2.1⟩]
      rw [is_visible_plain ho.2.2 pos]
      have hdrop' : child.drop (pos + 1) = rest := drop_cons_succ hdrop
      by_cases hvis : o.succ.isEmpty
      · rw [hvis, if_pos rfl, visible_op_empty]
        rw [ih child obj k (pos + 1) _ _ hdrop'
          (fun x hx => hall x (List.mem_cons_of_mem _ hx))]
        have hfil : List.filter (fun x : Op => x.succ.isEmpty) (o :: rest)
            = o :: List.filter (fun x : Op => x.succ.isEmpty) rest := by
          rw [List.filter_cons]
          simp [hvis]
        rw [hfil]
        simp
      · rw [Bool.of_not_eq_true hvis, if_neg (by simp)]
        rw [ih child obj k (pos + 1) _ _ hdrop'
          (fun x hx => hall x (List.mem_cons_of_mem _ hx))]
        have hfil : List.filter (fun x : Op => x.succ.isEmpty) (o :: rest)
            = List.filter (fun x : Op => x.succ.isEmpty) rest := by
          rw [List.filter_cons]
          simp [Bool.of_not_eq_true hvis]
        rw [hfil]

theorem pairwise_getLast {α : Type} {R : α → α → Prop} :
    ∀ {l : List α} {x y : α}, l.Pairwise R → x ∈ l →
      l.getLast? = some y → x = y ∨ R x y := by
  intro l
  induction l with
  | nil => intro x y _ hx; cases hx
  | cons a t ih =>
      intro x y hp hx hlast
      cases ht : t with
      | nil =>
          subst ht
          simp at hlast hx
          subst hlast
          subst hx
          left
          rfl
      | cons b t2 =>
          have hlast' : t.getLast? = some y := by
            rw [ht] at hlast ⊢
            rw [List.getLast?_cons_cons] at hlast
            exact hlast
          have hymem : y ∈ t := by
            rw [ht]
            rcases List.mem_getLast?_eq_getLast (by rw [ht] at hlast'; exact hlast')
              with ⟨hne, hy⟩
            rw [hy]
            exact List.getLast_mem _
          rcases List.mem_cons.mp hx with hx | hx
          · subst hx
            right
            exact (List.pairwise_cons.mp hp).1 y hymem
          · exact ih (List.pairwise_cons.mp hp).2 hx hlast'

/-- A `values` run over a run of plain `Set` ops at one map key reduces
to the visible-filter of the stored run, in storage order. -/
theorem values_map_plain (child : List Op) (obj : OpId) (k : String)
    (hplain : ∀ o ∈ child, o.obj = obj ∧ o.key = Key.map k ∧
      plainSet o = true) :
    values_map child obj k
      = (child.filter (fun o => o.succ.isEmpty)).map
          (fun o => (o.value, o.id)) := by
  have hallf : ∀ x ∈ child,
      (fun op => (lamport_cmp op.obj obj).then
        (prop_cmp op.key (Key.map k))) x ≠ Ordering.lt := by
    intro x hx
    have hx' := hplain x hx
    simp only
    rw [hx'.1, lamport_cmp_self, hx'.2.1, prop_cmp_self_map]
    intro hcontra
    cases hcontra
  unfold values_map propQuery
  rw [binary_search_by_zero _ _ hallf]
  rw [propLoop_plain child child obj k 0 [] [] rfl hplain]
  simp

/-- C7 (amended): for plain `Set` ops stored in ascending Lamport order
(the spec's "conflicts preserved in Lamport order", section 3.2), `values`
reports the visible conflicting ops in ascending Lamport op id order, the
conflict winner — the greatest op id — is the last element, and `value`
returns exactly that last element. -/
theorem conflict_reporting (child : List Op) (obj : OpId) (k : String)
    (hplain : ∀ o ∈ child, o.obj = obj ∧ o.key = Key.map k ∧
      plainSet o = true)
    (hsorted : List.Pairwise (fun a b => lamportLt a.id b.id) child) :
    values_map child obj k
      = (child.filter (fun o => o.succ.isEmpty)).map
          (fun o => (o.value, o.id)) ∧
    value_map child obj k = (values_map child obj k).getLast? ∧
    List.Pairwise lamportLt ((values_map child obj k).map Prod.snd) ∧
    (∀ p ∈ values_map child obj k, ∀ q,
      value_map child obj k = some q → p.2 = q.2 ∨ lamportLt p.2 q.2) := by
  have hvals := values_map_plain child obj k hplain
  refine ⟨hvals, rfl, ?_, ?_⟩
  · rw [hvals]
    rw [List.map_map]
    have : (Prod.snd ∘ fun o => (o.value, o.id)) = Op.id := rfl
    rw [this]
    rw [List.pairwise_map]
    exact (hsorted.sublist (List.filter_sublist child))
  · intro p hp q hq
    have hpair : List.Pairwise (fun a b : Value × OpId => lamportLt a.2 b.2)
        (values_map child obj k) := by
      rw [hvals, List.pairwise_map]
      have : List.Pairwise (fun a b : Op => lamportLt a.id b.id)
          (child.filter (fun o => o.succ.isEmpty)) :=
        hsorted.sublist (List.filter_sublist child)
      exact this.imp (fun h => h)
    have := pairwise_getLast hpair hp hq
    rcases this with h | h
    · left; rw [h]
    · right; exact h

/-- Two concurrent plain writes to the same map key by actors 0 and 1
(same counter, distinct actors): both visible, a conflict. -/
def conflictX : Op :=
  { id := ⟨2, 0⟩, change := 1, obj := rootObj, key := Key.map "k"
    action := OpType.set (ScalarValue.str "x"), pred := [], succ := []
    insert := false }

def conflictY : Op :=
  { conflictX with
    id := ⟨2, 1⟩
    action := OpType.set (ScalarValue.str "y") }

/-- C7 counterexample: on a concrete conflict the reported list is in
ascending Lamport order, not descending as the claim states — a
descending list with more than one distinct id cannot have the winner
(greatest id) last. -/
theorem conflict_order_counterexample :
    (values_map [conflictX, conflictY] rootObj "k").map Prod.snd
      = [⟨2, 0⟩, ⟨2, 1⟩] ∧
    ¬ List.Pairwise (fun a b : OpId => lamportLt b a)
      ((values_map [conflictX, conflictY] rootObj "k").map Prod.snd) := by
  have h := values_map_plain [conflictX, conflictY] rootObj "k" (by decide)
  rw [h]
  constructor
  · decide
  · decide

/-- C7 witness: the amended theorem at the concrete conflict — ascending
report, and `value` returns the last element, the Lamport-greatest op. -/
theorem conflict_reporting_witness :
    values_map [conflictX, conflictY] rootObj "k"
      = [(Value.scalar (ScalarValue.str "x"), ⟨2, 0⟩),
         (Value.scalar (ScalarValue.str "y"), ⟨2, 1⟩)] ∧
    value_map [conflictX, conflictY] rootObj "k"
      = (values_map [conflictX, conflictY] rootObj "k").getLast? ∧
    List.Pairwise lamportLt
      ((values_map [conflictX, conflictY] rootObj "k").map Prod.snd) := by
  have h := conflict_reporting [conflictX, conflictY] rootObj "k"
    (by decide) (by decide)
  refine ⟨?_, h.2.1, h.2.2.1⟩
  rw [h.1]
  decide

/-! ## C9: Del ops leave the tree unchanged except succ sets -/

theorem foldl_set_length (op : Op) :
    ∀ (ps : List Nat) (acc : List Op),
      (ps.foldl (fun a i => a.set i ((a.getD i default).add_succ op)) acc).length
        = acc.length := by
  intro ps
  induction ps with
  | nil => intro acc; rfl
  | cons p rest ih =>
      intro acc
      rw [List.foldl_cons, ih]
      exact List.length_set acc p _

theorem foldl_set_distinct (op : Op) (tree : List Op) :
    ∀ (ps : List Nat) (acc : List Op), ps.Nodup →
      acc.length = tree.length →
      (∀ i ∈ ps, i < tree.length ∧ acc.getD i default = tree.getD i default) →
      ∀ j, j < tree.length →
        ((ps.foldl (fun a i => a.set i ((a.getD i default).add_succ op)) acc).getD
            j default)
          = if j ∈ ps then (tree.getD j default).add_succ op
            else acc.getD j default := by
  intro ps
  induction ps with
  | nil =>
      intro acc _ _ _ j _
      simp
  | cons p rest ih =>
      intro acc hnodup hlen hagree j hj
      rw [List.foldl_cons]
      have hp := hagree p (List.mem_cons_self _ _)
      have hplt : p < acc.length := by omega
      have hset_p : (acc.set p ((acc.getD p default).add_succ op)).getD p default
          = (tree.getD p default).add_succ op := by
        rw [List.getD_eq_getElem _ default (by rw [List.length_set]; omega)]
        rw [List.getElem_set_self]
        rw [hp.2]
      have hset_ne : ∀ i, i ≠ p → i < acc.length →
          (acc.set p ((acc.getD p default).add_succ op)).getD i default
            = acc.getD i default := by
        intro i hne hi
        rw [List.getD_eq_getElem _ default (by rw [List.length_set]; omega),
          List.getD_eq_getElem _ default hi]
        exact List.getElem_set_ne (fun h => hne h.symm) _
      have hres := ih (acc.set p ((acc.getD p default).add_succ op))
        (List.nodup_cons.mp hnodup).2
        (by rw [List.length_set]; omega)
        (by
          intro i hi
          have hia := hagree i (List.mem_cons_of_mem _ hi)
          refine ⟨hia.1, ?_⟩
          rw [hset_ne i (fun heq =>
            (List.nodup_cons.mp hnodup).1 (heq ▸ hi)) (by omega)]
          exact hia.2)
        j hj
      rw [hres]
      by_cases hjp : j = p
      · subst hjp
        have hjrest : j ∉ rest := (List.nodup_cons.mp hnodup).1
        rw [if_neg hjrest, if_pos (List.mem_cons_self _ _)]
        exact hset_p
      · by_cases hjrest : j ∈ rest
        · rw [if_pos hjrest, if_pos (List.mem_cons_of_mem _ hjrest)]
        · rw [if_neg hjrest,
            if_neg (by
              intro hmem
              rcases List.mem_cons.mp hmem with h | h
              · exact hjp h
              · exact hjrest h)]
          exact hset_ne j hjp (by omega)

theorem mem_seekSuccPositions {tree : List Op} {op : Op} {i : Nat} :
    i ∈ seekSuccPositions tree op ↔
      i < tree.length ∧ (tree.getD i default).id ∈ op.pred := by
  unfold seekSuccPositions
  rw [List.mem_filter, List.mem_range]
  simp

theorem nodup_seekSuccPositions (tree : List Op) (op : Op) :
    (seekSuccPositions tree op).Nodup :=
  List.Nodup.filter _ (List.nodup_range _)

/-- The succ-update pass of `insert_op` is a pointwise map over the tree:
each op named in the new op's `pred` gets the new id appended to its
`succ`, every other op is untouched. -/
theorem succ_pass_eq_map (tree : List Op) (op : Op) :
    (seekSuccPositions tree op).foldl
        (fun a i => a.set i ((a.getD i default).add_succ op)) tree
      = tree.map (fun o => if o.id ∈ op.pred then o.add_succ op else o) := by
  apply List.ext_getElem
  · rw [foldl_set_length, List.length_map]
  · intro j hj1 hj2
    have hjt : j < tree.length := by
      rw [foldl_set_length] at hj1
      exact hj1
    have h := foldl_set_distinct op tree (seekSuccPositions tree op) tree
      (nodup_seekSuccPositions tree op) rfl
      (fun i hi => ⟨(mem_seekSuccPositions.mp hi).1, rfl⟩) j hjt
    rw [List.getD_eq_getElem _ default hj1] at h
    rw [h]
    rw [List.getElem_map]
    rw [← List.getD_eq_getElem tree default hjt]
    by_cases hmem : (tree.getD j default).id ∈ op.pred
    · rw [if_pos (mem_seekSuccPositions.mpr ⟨hjt, hmem⟩), if_pos hmem]
    · rw [if_neg (fun hc => hmem (mem_seekSuccPositions.mp hc).2),
        if_neg hmem]

/-- C9: a `Del` op is not inserted into the op tree — the tree keeps the
same element sequence, with the Del's id appended to the `succ` of every
op its `pred` names — while a non-Del op is additionally inserted at the
position found by SeekOp after the same succ updates. -/
theorem del_ops_frame (tree : List Op) (op : Op) :
    (op.action = OpType.del →
      insert_op tree op
        = tree.map (fun o => if o.id ∈ op.pred then o.add_succ op else o) ∧
      (insert_op tree op).map Op.id = tree.map Op.id ∧
      (insert_op tree op).length = tree.length) ∧
    (op.action ≠ OpType.del →
      insert_op tree op
        = (tree.map (fun o => if o.id ∈ op.pred then o.add_succ op else o)).insertIdx
            (seek_op tree op).1 op) := by
  have hid : ∀ o : Op, (if o.id ∈ op.pred then o.add_succ op else o).id = o.id := by
    intro o
    by_cases h : o.id ∈ op.pred
    · rw [if_pos h]; rfl
    · rw [if_neg h]
  constructor
  · intro hdel
    have hisdel : op.is_del = true := by
      unfold Op.is_del
      rw [hdel]
    have heq : insert_op tree op
        = tree.map (fun o => if o.id ∈ op.pred then o.add_succ op else o) := by
      unfold insert_op
      rw [if_neg (by rw [hisdel]; simp)]
      exact succ_pass_eq_map tree op
    refine ⟨heq, ?_, ?_⟩
    · rw [heq, List.map_map]
      exact List.map_congr_left (fun o _ => hid o)
    · rw [heq, List.length_map]
  · intro hndel
    have hisdel : op.is_del = false := by
      unfold Op.is_del
      cases hact : op.action with
      | del => exact absurd hact hndel
      | make k => rfl
      | set v => rfl
      | inc d => rfl
    unfold insert_op
    rw [if_pos (by rw [hisdel]; simp)]
    exact congrArg (List.insertIdx (seek_op tree op).1 op)
      (succ_pass_eq_map tree op)

/-- Concrete ops for the C9 witness: a tree of two live ops and a delete
naming the first in its `pred`. -/
def treeOpX : Op :=
  { id := ⟨2, 0⟩, change := 1, obj := rootObj, key := Key.map "a"
    action := OpType.set (ScalarValue.int 1), pred := [], succ := []
    insert := false }

def treeOpY : Op :=
  { treeOpX with
    id := ⟨3, 0⟩
    key := Key.map "b" }

def delOpW : Op :=
  { treeOpX with
    id := ⟨4, 0⟩
    action := OpType.del
    pred := [⟨2, 0⟩] }

/-- C9 witness: deleting key "a" touches only the succ of its
predecessor; nothing is inserted. -/
theorem del_ops_frame_witness :
    insert_op [treeOpX, treeOpY] delOpW
      = [treeOpX.add_succ delOpW, treeOpY] ∧
    (insert_op [treeOpX, treeOpY] delOpW).map Op.id
      = [treeOpX.id, treeOpY.id] := by
  have h := (del_ops_frame [treeOpX, treeOpY] delOpW).1 rfl
  refine ⟨?_, ?_⟩
  · rw [h.1]
    decide
  · rw [h.2.1]
    rfl

/-! ## C10: empty-heads historical reads see the empty document -/

theorem clockLoop_nil (d : ADoc) (fuel : Nat) (seen : Finset Nat)
    (clock : Clock) : clockLoop d fuel [] seen clock = clock := by
  cases fuel with
  | zero => rfl
  | succ n => rfl

theorem clock_at_nil (d : ADoc) : clock_at d [] = [] := by
  unfold clock_at
  exact clockLoop_nil d _ _ _

theorem visibleAt_empty (op : Op) (h : 1 ≤ op.id.counter) :
    visibleAt [] op = false := by
  unfold visibleAt
  have hget : clockGet [] op.id.actor = 0 := rfl
  rw [hget, decide_eq_false (by omega), Bool.false_and]

/-- C10: with an empty heads slice the clock is empty, and (for op ids
with counters at least 1, as every stamped op has) no op is visible, so
keys_at, length_at, values_at and text_at all report the empty document. -/
theorem empty_heads_reads (d : ADoc) (obj : OpId) (p : String)
    (h : ∀ o ∈ d.ops, 1 ≤ o.id.counter) :
    clock_at d [] = [] ∧
    keys_at d obj [] = [] ∧
    length_at d obj [] = 0 ∧
    values_at_map d obj p [] = [] ∧
    text_at d obj [] = "" := by
  have hvis : ∀ o ∈ d.ops, visibleAt [] o = false :=
    fun o ho => visibleAt_empty o (h o ho)
  have hk : d.ops.filter (fun o => o.obj = obj && visibleAt [] o) = [] := by
    rw [List.filter_eq_nil_iff]
    intro o ho
    rw [hvis o ho, Bool.and_false]
    exact Bool.false_ne_true
  have hk2 : d.ops.filter
      (fun o => o.obj = obj && o.key = Key.map p && visibleAt [] o) = [] := by
    rw [List.filter_eq_nil_iff]
    intro o ho
    rw [hvis o ho, Bool.and_false]
    exact Bool.false_ne_true
  have h1 : keys_at d obj [] = [] := by
    simp only [keys_at, clock_at_nil]
    rw [hk]
    rfl
  refine ⟨clock_at_nil d, h1, ?_, ?_, ?_⟩
  · simp only [length_at, clock_at_nil]
    cases hobj : object_type d obj with
    | none => rfl
    | some k =>
        cases k with
        | map => simpa using congrArg List.length h1
        | table => simpa using congrArg List.length h1
        | list => rw [hk]; rfl
        | text => rw [hk]; rfl
  · simp only [values_at_map, clock_at_nil]
    rw [hk2]
    rfl
  · simp only [text_at, clock_at_nil]
    rw [hk]
    rfl

/-- A concrete document with two stamped ops for the C10 witness. -/
def stR : ADoc :=
  { ADoc.new with ops := [treeOpX, treeOpY] }

/-- C10 witness: on `stR` every op counter is at least 1 and all four
reads at empty heads give the empty view. -/
theorem empty_heads_reads_witness :
    (∀ o ∈ stR.ops, 1 ≤ o.id.counter) ∧
    keys_at stR rootObj [] = [] ∧
    length_at stR rootObj [] = 0 ∧
    values_at_map stR rootObj "a" [] = [] ∧
    text_at stR rootObj [] = "" :=
  ⟨by decide,
    (empty_heads_reads stR rootObj "a" (by decide)).2.1,
    (empty_heads_reads stR rootObj "a" (by decide)).2.2.1,
    (empty_heads_reads stR rootObj "a" (by decide)).2.2.2.1,
    (empty_heads_reads stR rootObj "a" (by decide)).2.2.2.2⟩

/-! ## C5: fast/slow get_changes -/

/-- The set of hashes the slow path marks seen: the ancestor closure of
`have_deps` through `deps` edges (plus unknown hashes encountered). -/
def ancestorClosure (d : ADoc) (have_deps : List Nat) : Finset Nat :=
  slowLoop d have_deps.reverse ∅

theorem get_changes_slow_eq (d : ADoc) (hd : List Nat) :
    get_changes_slow d hd
      = d.history.filter (fun c => decide (c.hash ∉ ancestorClosure d hd)) :=
  rfl

theorem slowLoop_empty (d : ADoc) (seen : Finset Nat) :
    slowLoop d [] seen = seen := by
  rw [slowLoop.eq_def]

theorem slowLoop_skip (d : ADoc) (h : Nat) (rest : List Nat)
    (seen : Finset Nat) (hmem : h ∈ seen) :
    slowLoop d (h :: rest) seen = slowLoop d rest seen := by
  rw [slowLoop.eq_def]
  dsimp only
  exact if_pos hmem

theorem slowLoop_found (d : ADoc) (h : Nat) (rest : List Nat)
    (seen : Finset Nat) (c : Change) (hmem : h ∉ seen)
    (hc : get_change_by_hash d h = some c) :
    slowLoop d (h :: rest) seen
      = slowLoop d (c.deps.reverse ++ rest) (insert h seen) := by
  rw [slowLoop.eq_def]
  dsimp only
  rw [if_neg hmem]
  split
  · next c' heq =>
      rw [hc] at heq
      injection heq with heq
      rw [heq]
  · next heq =>
      rw [hc] at heq
      exact absurd heq (by simp)

theorem slowLoop_notfound (d : ADoc) (h : Nat) (rest : List Nat)
    (seen : Finset Nat) (hmem : h ∉ seen)
    (hc : get_change_by_hash d h = none) :
    slowLoop d (h :: rest) seen = slowLoop d rest (insert h seen) := by
  rw [slowLoop.eq_def]
  dsimp only
  rw [if_neg hmem]
  split
  · next c' heq =>
      rw [hc] at heq
      exact absurd heq (by simp)
  · next => rfl

theorem slowLoop_subset (d : ADoc) :
    ∀ (stack : List Nat) (seen : Finset Nat),
      (∀ x ∈ seen, x ∈ slowLoop d stack seen) ∧
      (∀ x ∈ stack, x ∈ slowLoop d stack seen) := by
  intro stack seen
  induction stack, seen using slowLoop.induct d with
  | case1 seen =>
      rw [slowLoop_empty]
      exact ⟨fun x hx => hx, fun x hx => absurd hx (List.not_mem_nil x)⟩
  | case2 seen h rest hmem ih =>
      rw [slowLoop_skip d h rest seen hmem]
      refine ⟨ih.1, fun x hx => ?_⟩
      rcases List.mem_cons.mp hx with hxh | hxr
      · exact hxh ▸ ih.1 h hmem
      · exact ih.2 x hxr
  | case3 seen h rest hmem c hc ih =>
      rw [slowLoop_found d h rest seen c hmem hc]
      constructor
      · exact fun x hx => ih.1 x (Finset.mem_insert_of_mem hx)
      · intro x hx
        rcases List.mem_cons.mp hx with hxh | hxr
        · exact hxh ▸ ih.1 h (Finset.mem_insert_self h seen)
        · exact ih.2 x (List.mem_append_right _ hxr)
  | case4 seen h rest hmem hc ih =>
      rw [slowLoop_notfound d h rest seen hmem hc]
      constructor
      · exact fun x hx => ih.1 x (Finset.mem_insert_of_mem hx)
      · intro x hx
        rcases List.mem_cons.mp hx with hxh | hxr
        · exact hxh ▸ ih.1 h (Finset.mem_insert_self h seen)
        · exact ih.2 x hxr

theorem slowLoop_closed (d : ADoc) :
    ∀ (stack : List Nat) (seen : Finset Nat),
      (∀ h ∈ seen, ∀ c, get_change_by_hash d h = some c →
        ∀ dp ∈ c.deps, dp ∈ seen ∨ dp ∈ stack) →
      ∀ h ∈ slowLoop d stack seen, ∀ c, get_change_by_hash d h = some c →
        ∀ dp ∈ c.deps, dp ∈ slowLoop d stack seen := by
  intro stack seen
  induction stack, seen using slowLoop.induct d with
  | case1 seen =>
      intro hinv h hh c hc dp hdp
      rw [slowLoop_empty] at hh ⊢
      rcases hinv h hh c hc dp hdp with h1 | h1
      · exact h1
      · exact absurd h1 (List.not_mem_nil dp)
  | case2 seen h rest hmem ih =>
      intro hinv
      rw [slowLoop_skip d h rest seen hmem]
      apply ih
      intro h' hh' c hc dp hdp
      rcases hinv h' hh' c hc dp hdp with h1 | h1
      · exact Or.inl h1
      · rcases List.mem_cons.mp h1 with h2 | h2
        · exact Or.inl (h2 ▸ hmem)
        · exact Or.inr h2
  | case3 seen h rest hmem c hc ih =>
      intro hinv
      rw [slowLoop_found d h rest seen c hmem hc]
      apply ih
      intro h' hh' c' hc' dp hdp
      rcases Finset.mem_insert.mp hh' with h1 | h1
      · subst h1
        rw [hc] at hc'
        injection hc' with hc'
        subst hc'
        exact Or.inr (List.mem_append_left _ (List.mem_reverse.mpr hdp))
      · rcases hinv h' h1 c' hc' dp hdp with h2 | h2
        · exact Or.inl (Finset.mem_insert_of_mem h2)
        · rcases List.mem_cons.mp h2 with h3 | h3
          · exact Or.inl (h3 ▸ Finset.mem_insert_self h seen)
          · exact Or.inr (List.mem_append_right _ h3)
  | case4 seen h rest hmem hc ih =>
      intro hinv
      rw [slowLoop_notfound d h rest seen hmem hc]
      apply ih
      intro h' hh' c' hc' dp hdp
      rcases Finset.mem_insert.mp hh' with h1 | h1
      · subst h1
        rw [hc] at hc'
        exact absurd hc' (by simp)
      · rcases hinv h' h1 c' hc' dp hdp with h2 | h2
        · exact Or.inl (Finset.mem_insert_of_mem h2)
        · rcases List.mem_cons.mp h2 with h3 | h3
          · exact Or.inl (h3 ▸ Finset.mem_insert_self h seen)
          · exact Or.inr h3

/-- A fuel-bounded mirror of `slowLoop`, used to evaluate the slow path
on concrete documents (`slowLoop` itself is defined by well-founded
recursion and does not reduce in the kernel). -/
def slowFuelO (d : ADoc) : Nat → List Nat → Finset Nat →
    Option (Finset Nat)
  | _, [], seen => some seen
  | 0, _ :: _, _ => none
  | fuel + 1, h :: rest, seen =>
      if h ∈ seen then slowFuelO d fuel rest seen
      else
        match get_change_by_hash d h with
        | some c => slowFuelO d fuel (c.deps.reverse ++ rest) (insert h seen)
        | none => slowFuelO d fuel rest (insert h seen)

theorem slowFuelO_sound (d : ADoc) :
    ∀ (n : Nat) (stack : List Nat) (seen r : Finset Nat),
      slowFuelO d n stack seen = some r → slowLoop d stack seen = r := by
  intro n
  induction n with
  | zero =>
      intro stack seen r hf
      cases stack with
      | nil =>
          rw [slowFuelO] at hf
          injection hf with hf
          rw [slowLoop_empty, hf]
      | cons h rest =>
          rw [slowFuelO] at hf
          exact absurd hf (by simp)
  | succ n ih =>
      intro stack seen r hf
      cases stack with
      | nil =>
          rw [slowFuelO] at hf
          injection hf with hf
          rw [slowLoop_empty, hf]
      | cons h rest =>
          rw [slowFuelO] at hf
          by_cases hmem : h ∈ seen
          · rw [if_pos hmem] at hf
            rw [slowLoop_skip d h rest seen hmem]
            exact ih rest seen r hf
          · rw [if_neg hmem] at hf
            rcases hc : get_change_by_hash d h with _ | c
            · rw [hc] at hf
              rw [slowLoop_notfound d h rest seen hmem hc]
              exact ih rest (insert h seen) r hf
            · rw [hc] at hf
              rw [slowLoop_found d h rest seen c hmem hc]
              exact ih (c.deps.reverse ++ rest) (insert h seen) r hf

theorem fast_mono :
    ∀ (l : List Change) (seen : Finset Nat) (acc accF : List Change)
      (seenF : Finset Nat),
      fastLoop l seen acc = some (accF, seenF) →
      ∀ x ∈ seen, x ∈ seenF := by
  intro l
  induction l with
  | nil =>
      intro seen acc accF seenF hf x hx
      rw [fastLoop] at hf
      injection hf with hf
      have h2 : seen = seenF := congrArg Prod.snd hf
      exact h2 ▸ hx
  | cons c rest ih =>
      intro seen acc accF seenF hf x hx
      rw [fastLoop] at hf
      by_cases h1 : 0 < c.deps.countP (fun h => decide (h ∈ seen))
      · rw [if_pos h1] at hf
        by_cases h2 : c.deps.countP (fun h => decide (h ∈ seen)) ≠ c.deps.length
        · rw [if_pos h2] at hf
          exact absurd hf (by simp)
        · rw [if_neg h2] at hf
          exact ih _ _ _ _ hf x (Finset.mem_insert_of_mem hx)
      · rw [if_neg h1] at hf
        exact ih _ _ _ _ hf x hx

theorem fast_sublist :
    ∀ (l : List Change) (seen : Finset Nat) (acc accF : List Change)
      (seenF : Finset Nat),
      fastLoop l seen acc = some (accF, seenF) →
      ∃ t, accF = acc ++ t ∧ t.Sublist l := by
  intro l
  induction l with
  | nil =>
      intro seen acc accF seenF hf
      rw [fastLoop] at hf
      injection hf with hf
      refine ⟨[], ?_, List.nil_sublist _⟩
      have h1 : acc = accF := congrArg Prod.fst hf
      rw [← h1, List.append_nil]
  | cons c rest ih =>
      intro seen acc accF seenF hf
      rw [fastLoop] at hf
      by_cases h1 : 0 < c.deps.countP (fun h => decide (h ∈ seen))
      · rw [if_pos h1] at hf
        by_cases h2 : c.deps.countP (fun h => decide (h ∈ seen)) ≠ c.deps.length
        · rw [if_pos h2] at hf
          exact absurd hf (by simp)
        · rw [if_neg h2] at hf
          rcases ih _ _ _ _ hf with ⟨t, ht1, ht2⟩
          exact ⟨c :: t, by rw [ht1]; simp, List.Sublist.cons₂ c ht2⟩
      · rw [if_neg h1] at hf
        rcases ih _ _ _ _ hf with ⟨t, ht1, ht2⟩
        exact ⟨t, ht1, List.Sublist.cons c ht2⟩

theorem fastA (d : ADoc) (hd : List Nat) (S : Finset Nat)
    (hclosed : ∀ c ∈ d.history, c.hash ∈ S → ∀ dp ∈ c.deps, dp ∈ S)
    (hAC : ∀ dp ∈ hd, ∀ c ∈ d.history, dp ∈ c.deps → c.hash ∉ S) :
    ∀ (l : List Change) (seen : Finset Nat) (acc accF : List Change)
      (seenF : Finset Nat),
      fastLoop l seen acc = some (accF, seenF) →
      (∀ c ∈ l, c ∈ d.history) →
      (∀ x ∈ seen, x ∈ hd ∨ ∃ c ∈ acc, c.hash = x) →
      (∀ c ∈ acc, c.hash ∉ S) →
      (∀ x ∈ seenF, x ∈ hd ∨ ∃ c ∈ accF, c.hash = x) ∧
      (∀ c ∈ accF, c.hash ∉ S) := by
  intro l
  induction l with
  | nil =>
      intro seen acc accF seenF hf hl hseen hacc
      rw [fastLoop] at hf
      injection hf with hf
      have h1 : acc = accF := congrArg Prod.fst hf
      have h2 : seen = seenF := congrArg Prod.snd hf
      subst h1
      subst h2
      exact ⟨hseen, hacc⟩
  | cons c rest ih =>
      intro seen acc accF seenF hf hl hseen hacc
      rw [fastLoop] at hf
      by_cases h1 : 0 < c.deps.countP (fun h => decide (h ∈ seen))
      · rw [if_pos h1] at hf
        by_cases h2 : c.deps.countP (fun h => decide (h ∈ seen)) ≠ c.deps.length
        · rw [if_pos h2] at hf
          exact absurd hf (by simp)
        · rw [if_neg h2] at hf
          have hch : c ∈ d.history := hl c (List.mem_cons_self _ _)
          have hcS : c.hash ∉ S := by
            intro hmem
            have hdeps : ∀ dp ∈ c.deps, dp ∈ S := hclosed c hch hmem
            rcases List.countP_pos.mp h1 with ⟨dp, hdp, hdps⟩
            have hdpseen : dp ∈ seen := of_decide_eq_true hdps
            rcases hseen dp hdpseen with hcase | ⟨c', hc'1, hc'2⟩
            · exact hAC dp hcase c hch hdp hmem
            · exact hacc c' hc'1 (hc'2 ▸ hdeps dp hdp)
          apply ih _ _ _ _ hf (fun x hx => hl x (List.mem_cons_of_mem _ hx))
          · intro x hx
            rcases Finset.mem_insert.mp hx with hxc | hxs
            · exact Or.inr ⟨c, by simp, hxc.symm⟩
            · rcases hseen x hxs with hcase | ⟨c', hc'1, hc'2⟩
              · exact Or.inl hcase
              · exact Or.inr ⟨c', by simp [hc'1], hc'2⟩
          · intro c' hc'
            rcases List.mem_append.mp hc' with hone | hone
            · exact hacc c' hone
            · rw [List.mem_singleton.mp hone]
              exact hcS
      · rw [if_neg h1] at hf
        exact ih _ _ _ _ hf (fun x hx => hl x (List.mem_cons_of_mem _ hx))
          hseen hacc

theorem fastC :
    ∀ (l : List Change) (seen : Finset Nat) (acc accF : List Change)
      (seenF : Finset Nat),
      fastLoop l seen acc = some (accF, seenF) →
      (∀ c ∈ acc, ∀ dp ∈ c.deps, dp ∈ seenF) →
      ∀ c ∈ accF, ∀ dp ∈ c.deps, dp ∈ seenF := by
  intro l
  induction l with
  | nil =>
      intro seen acc accF seenF hf hacc
      rw [fastLoop] at hf
      injection hf with hf
      have h1 : acc = accF := congrArg Prod.fst hf
      subst h1
      exact hacc
  | cons c rest ih =>
      intro seen acc accF seenF hf hacc
      rw [fastLoop] at hf
      by_cases h1 : 0 < c.deps.countP (fun h => decide (h ∈ seen))
      · rw [if_pos h1] at hf
        by_cases h2 : c.deps.countP (fun h => decide (h ∈ seen)) ≠ c.deps.length
        · rw [if_pos h2] at hf
          exact absurd hf (by simp)
        · rw [if_neg h2] at hf
          have hall : ∀ dp ∈ c.deps, dp ∈ seen := by
            intro dp hdp
            have hcnt := List.countP_eq_length.mp (not_ne_iff.mp h2) dp hdp
            exact of_decide_eq_true hcnt
          apply ih _ _ _ _ hf
          intro c' hc'
          rcases List.mem_append.mp hc' with hone | hone
          · exact hacc c' hone
          · rw [List.mem_singleton.mp hone]
            intro dp hdp
            exact fast_mono _ _ _ _ _ hf dp
              (Finset.mem_insert_of_mem (hall dp hdp))
      · rw [if_neg h1] at hf
        exact ih _ _ _ _ hf hacc

theorem gcb_of_mem_history (d : ADoc) (hIdx : IndexInvP d) {c : Change}
    (hc : c ∈ d.history) : get_change_by_hash d c.hash = some c := by
  rcases List.getElem_of_mem hc with ⟨i, hi, hgi⟩
  have h2 := hIdx.2 i hi
  rw [List.getD_eq_getElem _ default hi, hgi] at h2
  unfold get_change_by_hash
  rw [h2]
  show d.history.get? i = some c
  rw [List.get?_eq_getElem?, List.getElem?_eq_getElem hi, hgi]

theorem history_hash_inj (d : ADoc) (hNd : HashNodupP d) {c c' : Change}
    (hc : c ∈ d.history) (hc' : c' ∈ d.history) (h : c.hash = c'.hash) :
    c = c' :=
  List.inj_on_of_nodup_map hNd hc hc' h

theorem dep_index_lt (d : ADoc) (hCau : CausalInvP d) (hNd : HashNodupP d)
    {i j : Nat} (hi : i < d.history.length) (hj : j < d.history.length)
    (hdep : (d.history.getD i default).hash
      ∈ (d.history.getD j default).deps) :
    i < j := by
  rcases hCau j hj _ hdep with ⟨j', hj', hhash⟩
  have hj'len : j' < d.history.length := lt_trans hj' hj
  have hceq : d.history.getD j' default = d.history.getD i default :=
    history_hash_inj d hNd
      (by rw [List.getD_eq_getElem _ default hj'len]; exact List.getElem_mem _)
      (by rw [List.getD_eq_getElem _ default hi]; exact List.getElem_mem _)
      hhash
  have hnd : d.history.Nodup := List.Nodup.of_map _ hNd
  have hji : j' = i := by
    rw [List.getD_eq_getElem _ default hj'len,
      List.getD_eq_getElem _ default hi] at hceq
    exact (List.Nodup.getElem_inj_iff hnd).mp hceq
  omega

theorem head_of_no_dep (d : ADoc) (hFr : FrontierInvP d) {c : Change}
    (hc : c ∈ d.history) (hnd : ∀ c' ∈ d.history, c.hash ∉ c'.deps) :
    c.hash ∈ get_heads d := by
  have h1 : c.hash ∈ frontierSet d.history := by
    unfold frontierSet
    rw [Finset.mem_filter]
    constructor
    · unfold histHashes
      rw [List.mem_toFinset]
      exact List.mem_map_of_mem _ hc
    · exact hnd
  rw [← hFr.2, List.mem_toFinset] at h1
  unfold get_heads
  exact (List.perm_insertionSort _ _).symm.subset h1

theorem filter_mem_of_sublist {α : Type} [DecidableEq α] :
    ∀ {l₂ l₁ : List α}, l₂.Sublist l₁ → l₁.Nodup →
      l₁.filter (fun a => decide (a ∈ l₂)) = l₂ := by
  intro l₂ l₁ hs
  induction hs with
  | slnil => intro _; rfl
  | cons a hs ih =>
      intro hn
      rw [List.filter_cons]
      have hna : a ∉ _ := fun hmem => (List.nodup_cons.mp hn).1 (hs.subset hmem)
      rw [if_neg (by simpa using hna)]
      exact ih (List.nodup_cons.mp hn).2
  | cons₂ a hs ih =>
      rename_i u v
      intro hn
      rw [List.filter_cons]
      rw [if_pos (by simp)]
      congr 1
      have hcg : List.filter (fun x => decide (x ∈ a :: u)) v
          = List.filter (fun x => decide (x ∈ u)) v :=
        List.filter_congr (fun x hx => by
          have hxa : x ≠ a := fun he => (List.nodup_cons.mp hn).1 (he ▸ hx)
          simp [List.mem_cons, hxa])
      rw [hcg]
      exact ih (List.nodup_cons.mp hn).2

/-- C5 (amended): on an invariant-satisfying document, when no element of
`have_deps` is itself inside the ancestor closure of another (phrased: no
change that lists a `have_deps` hash among its deps lies in the closure),
a successful fast path agrees with the slow path — the history minus the
ancestor closure of `have_deps` — and `get_changes` returns that list.
Without the side condition the two paths disagree (see the
counterexample): the fast path also returns closure members that lie
above the lowest `have_deps` index. -/
theorem get_changes_equivalence (d : ADoc) (hd : List Nat) (r : List Change)
    (hInv : DocInv d)
    (hAC : ∀ dp ∈ hd, ∀ c ∈ d.history, dp ∈ c.deps →
      c.hash ∉ ancestorClosure d hd)
    (hfast : get_changes_fast d hd = some r) :
    r = get_changes_slow d hd ∧ get_changes d hd = get_changes_slow d hd := by
  obtain ⟨hIdx, hCau, hNd, hFr, -, -⟩ := hInv
  have hmain : r = get_changes_slow d hd := by
    unfold get_changes_fast at hfast
    by_cases hhd : hd.isEmpty
    · rw [if_pos hhd] at hfast
      injection hfast with hfast
      have hdnil : hd = [] := List.isEmpty_iff.mp hhd
      subst hdnil
      rw [← hfast, get_changes_slow_eq]
      have hS : ancestorClosure d [] = ∅ := slowLoop_empty d ∅
      rw [hS]
      symm
      rw [List.filter_eq_self]
      intro c _
      simp
    · rw [if_neg hhd] at hfast
      rcases hmin : (hd.filterMap (lookupA d.historyIndex)).min? with _ | m
      · rw [hmin] at hfast
        exact absurd hfast (by simp)
      · rw [hmin] at hfast
        dsimp only at hfast
        rcases hloop : fastLoop (d.history.drop (m + 1)) hd.toFinset []
            with _ | p
        · rw [hloop] at hfast
          exact absurd hfast (by simp)
        · rw [hloop] at hfast
          dsimp only at hfast
          obtain ⟨accF, seenF⟩ := p
          by_cases hheads :
              (get_heads d).all (fun h => decide (h ∈ seenF)) = true
          · rw [if_pos hheads] at hfast
            injection hfast with hfast
            -- hfast : accF = r
            subst hfast
            set S := ancestorClosure d hd with hSdef
            have hP1 : ∀ x ∈ hd, x ∈ S := fun x hx =>
              (slowLoop_subset d hd.reverse ∅).2 x (List.mem_reverse.mpr hx)
            have hP2 : ∀ c ∈ d.history, c.hash ∈ S →
                ∀ dp ∈ c.deps, dp ∈ S := by
              intro c hc hcS dp hdp
              exact slowLoop_closed d hd.reverse ∅
                (fun h hh => absurd hh (Finset.not_mem_empty h))
                c.hash hcS c (gcb_of_mem_history d hIdx hc) dp hdp
            have hA := fastA d hd S hP2 hAC (d.history.drop (m + 1))
              hd.toFinset [] accF seenF hloop
              (fun c hc => (List.drop_sublist _ _).subset hc)
              (fun x hx => Or.inl (List.mem_toFinset.mp hx))
              (fun c hc => absurd hc (List.not_mem_nil c))
            have hsubl : accF.Sublist d.history := by
              rcases fast_sublist _ _ _ _ _ hloop with ⟨t, ht1, ht2⟩
              rw [List.nil_append] at ht1
              exact ht1 ▸ ht2.trans (List.drop_sublist _ _)
            have haccH : ∀ c ∈ accF, c ∈ d.history :=
              fun c hc => hsubl.subset hc
            have hC := fastC _ _ _ _ _ hloop
              (fun c hc => absurd hc (List.not_mem_nil c))
            have hheads' : ∀ h ∈ get_heads d, h ∈ seenF := by
              intro h hh
              exact of_decide_eq_true (List.all_eq_true.mp hheads h hh)
            have hseen_to_S : ∀ c ∈ d.history, c ∉ accF →
                c.hash ∈ seenF → c.hash ∈ S := by
              intro c hc hnacc hcs
              rcases hA.1 c.hash hcs with h1 | ⟨c', hc'1, hc'2⟩
              · exact hP1 _ h1
              · have hcc : c' = c :=
                  history_hash_inj d hNd (haccH c' hc'1) hc hc'2
                exact absurd (hcc ▸ hc'1) hnacc
            have h2b : ∀ k i, i < d.history.length →
                d.history.length - i ≤ k →
                d.history.getD i default ∉ accF →
                (d.history.getD i default).hash ∈ S := by
              intro k
              induction k with
              | zero =>
                  intro i hi hle
                  exact absurd hle (by omega)
              | succ k ih =>
                  intro i hi hle hnacc
                  have hcmem : d.history.getD i default ∈ d.history := by
                    rw [List.getD_eq_getElem _ default hi]
                    exact List.getElem_mem _
                  by_cases hnodep : ∀ c' ∈ d.history,
                      (d.history.getD i default).hash ∉ c'.deps
                  · have hh : (d.history.getD i default).hash ∈ get_heads d :=
                      head_of_no_dep d hFr hcmem hnodep
                    exact hseen_to_S _ hcmem hnacc (hheads' _ hh)
                  · push_neg at hnodep
                    rcases hnodep with ⟨c', hc'mem, hc'dep⟩
                    rcases List.getElem_of_mem hc'mem with ⟨j, hj, hgj⟩
                    have hc'getD : d.history.getD j default = c' := by
                      rw [List.getD_eq_getElem _ default hj, hgj]
                    have hij : i < j := dep_index_lt d hCau hNd hi hj
                      (by rw [hc'getD]; exact hc'dep)
                    by_cases hc'acc : c' ∈ accF
                    · exact hseen_to_S _ hcmem hnacc
                        (hC c' hc'acc _ hc'dep)
                    · have hjS : (d.history.getD j default).hash ∈ S :=
                        ih j hj (by omega)
                          (by rw [hc'getD]; exact hc'acc)
                      rw [hc'getD] at hjS
                      exact hP2 c' hc'mem hjS _ hc'dep
            have hiff : ∀ c ∈ d.history, (c ∈ accF ↔ c.hash ∉ S) := by
              intro c hc
              constructor
              · exact fun ha => hA.2 c ha
              · intro hnotS
                by_contra hnacc
                rcases List.getElem_of_mem hc with ⟨i, hi, hgi⟩
                apply hnotS
                have hstep := h2b d.history.length i hi (by omega)
                  (by rw [List.getD_eq_getElem _ default hi, hgi]
                      exact hnacc)
                rw [List.getD_eq_getElem _ default hi, hgi] at hstep
                exact hstep
            rw [get_changes_slow_eq]
            have hcongr : d.history.filter
                  (fun c => decide (c.hash ∉ ancestorClosure d hd))
                = d.history.filter (fun c => decide (c ∈ accF)) :=
              List.filter_congr (by
                intro c hc
                rw [decide_eq_decide]
                exact (hiff c hc).symm)
            rw [hcongr]
            symm
            exact filter_mem_of_sublist hsubl (List.Nodup.of_map _ hNd)
          · rw [if_neg hheads] at hfast
            exact absurd hfast (by simp)
  refine ⟨hmain, ?_⟩
  unfold get_changes
  rw [hfast]
  exact hmain

/-- Three chained changes for the C5 scenario: a linear history
`cX0 ← cX1 ← cX2`. -/
def cX0 : Change :=
  { actorId := 1, seq := 1, startOp := 1, deps := [], hash := 100, ops := [] }

def cX1 : Change :=
  { actorId := 1, seq := 2, startOp := 1, deps := [100], hash := 101
    ops := [] }

def cX2 : Change :=
  { actorId := 1, seq := 3, startOp := 1, deps := [101], hash := 102
    ops := [] }

/-- The document holding the linear three-change history. -/
def dX : ADoc :=
  (apply_changes [cX0, cX1, cX2] ADoc.new).toOption.getD ADoc.new

/-- Counterexample to the claimed unconditional fast/slow equivalence: on
the reachable document `dX` with `have_deps = [100, 102]` (an ancestor
and its descendant head) the fast path returns `[cX1, cX2]`, but the slow
path — history minus the ancestor closure of `have_deps` — returns `[]`:
the fast scan starts at the index after `min(index(have_deps))` and
re-includes the closure members `cX1` and `cX2`. -/
theorem get_changes_counterexample :
    apply_changes [cX0, cX1, cX2] ADoc.new = Except.ok dX ∧
    get_changes_fast dX [100, 102] = some [cX1, cX2] ∧
    get_changes_slow dX [100, 102] = [] ∧
    get_changes_fast dX [100, 102] ≠ some (get_changes_slow dX [100, 102]) := by
  have hS : slowLoop dX [102, 100] ∅ = ({100, 101, 102} : Finset Nat) :=
    slowFuelO_sound dX 10 [102, 100] ∅ _ (by decide)
  have hslow : get_changes_slow dX [100, 102] = [] := by
    rw [get_changes_slow_eq]
    have hac : ancestorClosure dX [100, 102] = ({100, 101, 102} : Finset Nat) :=
      hS
    rw [hac]
    decide
  have hfast : get_changes_fast dX [100, 102] = some [cX1, cX2] := by decide
  refine ⟨by decide, hfast, hslow, ?_⟩
  rw [hfast, hslow]
  decide

/-- C5 witness: on `dX` with the single head `[102]` the side condition
holds (no change lists 102 among its deps), the fast path succeeds with
`[]`, and both conclusions of the amended equivalence follow. -/
theorem get_changes_equivalence_witness :
    DocInv dX ∧
    (∀ dp ∈ [102], ∀ c ∈ dX.history, dp ∈ c.deps →
      c.hash ∉ ancestorClosure dX [102]) ∧
    get_changes_fast dX [102] = some [] ∧
    ([] : List Change) = get_changes_slow dX [102] ∧
    get_changes dX [102] = get_changes_slow dX [102] := by
  have hInv : DocInv dX := by decide
  have hAC : ∀ dp ∈ [102], ∀ c ∈ dX.history, dp ∈ c.deps →
      c.hash ∉ ancestorClosure dX [102] := by decide
  have hfast : get_changes_fast dX [102] = some [] := by decide
  have h := get_changes_equivalence dX [102] [] hInv hAC hfast
  exact ⟨hInv, hAC, hfast, h.1, h.2⟩
